import Mathlib

/-!
Verification development for the photo-collection indexing pipeline of the
`http-server` crate (`src/photos.rs`, with helpers from `src/util.rs`).

The Rust code is shallowly embedded: each Lean definition mirrors one Rust
item (constants, pure helper functions, and the pure cores of the stateful
routines, with the state passed explicitly).  Rust `String` is modelled by
Lean `String` (byte-wise `str::cmp` is modelled by code-point-wise
lexicographic comparison on `String.data`, which agrees with it because
UTF-8 byte order coincides with code-point order).  `HashMap` values are
modelled as association lists, `BTreeMap` as a sorted association list,
machine integers/timestamps as `Int`, EXIF rationals as `ℚ`, and fallible
Rust functions return `Except`/`Option`.  `Vec::sort_by` (a stable sort) is
modelled by the stable `List.insertionSort`.  The external
`markdown_to_html` renderer is an abstract function parameter.
-/

namespace PhotosSite

instance {ε α : Type} [DecidableEq ε] [DecidableEq α] : DecidableEq (Except ε α) :=
  fun x y =>
    match x, y with
    | Except.error e, Except.error f =>
      if h : e = f then Decidable.isTrue (congrArg Except.error h)
      else Decidable.isFalse fun hc => h (Except.error.inj hc)
    | Except.ok a, Except.ok b =>
      if h : a = b then Decidable.isTrue (congrArg Except.ok h)
      else Decidable.isFalse fun hc => h (Except.ok.inj hc)
    | Except.error _, Except.ok _ => Decidable.isFalse fun hc => Except.noConfusion hc
    | Except.ok _, Except.error _ => Decidable.isFalse fun hc => Except.noConfusion hc

/-! ## String comparison (Rust `str::cmp`, byte-wise lexicographic) -/

/-- Lexicographic strict order on char lists; models Rust `str` comparison
returning `Ordering::Less` (UTF-8 byte order equals code-point order). -/
def charListLt : List Char → List Char → Bool
  | _, [] => false
  | [], _ :: _ => true
  | a :: as, b :: bs =>
    if a < b then true
    else if b < a then false
    else charListLt as bs

/-- Rust `a < b` on strings. -/
def strLt (a b : String) : Bool := charListLt a.data b.data

/-- Rust `a <= b` on strings (total order: not `b < a`). -/
def strLe (a b : String) : Bool := !(strLt b a)

/-! ## Constants from `src/photos.rs` -/

/-- Rust `ALL_ALBUM_PATH`: path-name of the auto-generated album holding
every photo; per its doc comment it must not be specified manually. -/
def ALL_ALBUM_PATH : String := "all"

/-- Rust `ALL_ALBUM_NAME`. -/
def ALL_ALBUM_NAME : String := "All photos"

/-- Rust `ALL_ALBUM_DESC`. -/
def ALL_ALBUM_DESC : String := "All of my photos on this site, each and every one"

/-- Rust `FAVORITES_ALBUM_NAME`. -/
def FAVORITES_ALBUM_NAME : String := "favorites"

/-- Rust `ALT_TEXT_PREFIX` (`"alt:"`), as a char list for line splitting. -/
def ALT_TEXT_MARKER : List Char := ['a', 'l', 't', ':']

/-! ## `src/util.rs` helpers -/

/-- Rust `URI_ENCODE_AS_IS_RANGES`: inclusive character ranges that URI
encode to themselves. -/
def URI_ENCODE_AS_IS_RANGES : List (Char × Char) :=
  [('A', 'Z'), ('a', 'z'), ('0', '9'), ('-', '-'), ('~', '~'), ('.', '.'), ('_', '_')]

/-- Rust `is_uri_idempotent`: every character lies in one of the ranges. -/
def is_uri_idempotent (s : String) : Bool :=
  s.data.all fun c => URI_ENCODE_AS_IS_RANGES.any fun r => r.1 ≤ c && c ≤ r.2

/-! ## Claim C1: the reserved-name validation in `PhotosState::new`

`PhotosState::new` builds `all_albums` as a map keyed by album *path* and
then checks `all_albums.contains_key(ALL_ALBUM_NAME)` — i.e. it compares the
paths against the display name `"All photos"`, not against the reserved path
`"all"` (`ALL_ALBUM_PATH`). -/

/-- The reserved-name check of `PhotosState::new` (photos.rs line 399):
`all_albums.contains_key(ALL_ALBUM_NAME)`, where the keys of `all_albums`
are the album path names from the manifest. -/
def reservedNameViolation (albumPaths : List String) : Bool :=
  albumPaths.contains ALL_ALBUM_NAME

/-! ## Claim C2: description / alt-text extraction

`PhotoExifInfo::get_description` decodes the `UserComment` tag and returns
`markdown_to_html(text)`; `from_img_data` then maps over that result to
split off alt text.  Text is modelled as `List Char` and the external
markdown renderer as an abstract function parameter. -/

/-- Models Rust `str::split_once('\n')`: splits at the first occurrence of
the character, which is dropped; `none` when the character is absent. -/
def splitOnceChar (c : Char) : List Char → Option (List Char × List Char)
  | [] => none
  | x :: xs =>
    if x = c then some ([], xs)
    else
      match splitOnceChar c xs with
      | none => none
      | some (a, b) => some (x :: a, b)

/-- Models `PhotoExifInfo::get_description` after character-set decoding:
empty decoded text yields `none`; otherwise the text is rendered to HTML
(`markdown_to_html`) and returned.  (The decoding itself — ASCII/UTF-16
markers — is abstracted into the `decoded` argument.) -/
def get_description (mdToHtml : List Char → List Char) (decoded : Option (List Char)) :
    Option (List Char) :=
  match decoded with
  | none => none
  | some s => if s = [] then none else some (mdToHtml s)

/-- Models the closure in `PhotoExifInfo::from_img_data` (photos.rs lines
840–867) producing the pair `(description, alt_text)` from the result of
`get_description`.  Component order matches the Rust
`let (description, alt_text) = ...` destructuring. -/
def description_and_alt_text (mdToHtml : List Char → List Char) :
    Option (List Char) → Option (List Char) × Option (List Char)
  | none => (none, none)
  | some desc =>
    if !(ALT_TEXT_MARKER.isPrefixOf desc) then
      (some (mdToHtml desc), none)
    else
      match splitOnceChar '\n' desc with
      | none => (none, some desc)
      | some (first_line, rest) =>
        (some (first_line.drop ALT_TEXT_MARKER.length), some (mdToHtml rest))

/-- The composed description/alt-text path of `from_img_data`:
`get_description` (which already rendered the text to HTML) followed by the
alt-text-splitting closure. -/
def from_img_data_desc_alt (mdToHtml : List Char → List Char)
    (decoded : Option (List Char)) : Option (List Char) × Option (List Char) :=
  description_and_alt_text mdToHtml (get_description mdToHtml decoded)

/-! ## Claim C5: `PhotoExifInfo::get_gps_coords`

The four tag reads (`gps_decimal` twice, `gps_ref` twice) are abstracted
into `Option ℚ` arguments: `none` models an absent tag, `some q` the parsed
magnitude (resp. the `±1` sign).  The error payload is the list of tag
names the code collects for its "partial GPS tags: missing …" message. -/

structure GPSCoords where
  lat : ℚ
  lon : ℚ
  deriving DecidableEq, Repr

/-- Models the DMS → decimal-degrees conversion in `gps_decimal`:
`deg.num/deg.denom + min.num/60/min.denom + sec.num/3600/sec.denom`
(over ℚ instead of `f64`). -/
def gps_decimal_dd (degNum degDen minNum minDen secNum secDen : ℕ) : ℚ :=
  (degNum : ℚ) / (degDen : ℚ) + (minNum : ℚ) / 60 / (minDen : ℚ)
    + (secNum : ℚ) / 3600 / (secDen : ℚ)

/-- Models `PhotoExifInfo::get_gps_coords` (photos.rs lines 1038–1073).
All four present: coordinates (magnitude times sign).  All four absent: no
coordinates.  Otherwise: error whose payload is the tag-name list built by
the code — the array `[(lat, "GPSLatitude"), (lat_sign, "GPSLatitudeRef"),
(lon, "GPSLongitude"), (lon_sign, "GPSLongitudeRef")]` filtered by
`is_some`. -/
def get_gps_coords (lat lon latSign lonSign : Option ℚ) :
    Except (List String) (Option GPSCoords) :=
  match lat, lon, latSign, lonSign with
  | some la, some lo, some las, some los =>
    Except.ok (some ⟨la * las, lo * los⟩)
  | none, none, none, none => Except.ok none
  | _, _, _, _ =>
    Except.error
      ((([(lat.isSome, "GPSLatitude"), (latSign.isSome, "GPSLatitudeRef"),
          (lon.isSome, "GPSLongitude"), (lonSign.isSome, "GPSLongitudeRef")].filter
            fun p => p.1).map fun p => p.2))

/-! ## The "all" album and the `PhotosState::new` pipeline (claims C1, C7, C10) -/

/-- A photo as needed for ordering: its file name and capture instant
(`exif_info.actual_datetime`, whose `Ord` compares the underlying UTC
instant, modelled as `Int`). -/
structure PhotoRef where
  name : String
  dt : Int
  deriving DecidableEq, Repr

/-- Descending capture-time comparison used in `PhotosState::new`:
`x.cmp(y).reverse()` sorts so that later images come first; the matching
"may precede" relation is `y.dt ≤ x.dt`. -/
def dtGe (x y : PhotoRef) : Prop := y.dt ≤ x.dt

instance : DecidableRel dtGe := fun x y => inferInstanceAs (Decidable (y.dt ≤ x.dt))

instance : IsTotal PhotoRef dtGe := ⟨fun x y => le_total y.dt x.dt⟩

instance : IsTrans PhotoRef dtGe := ⟨fun _ _ _ h h' => le_trans h' h⟩

/-- The `images_sorted` list of `PhotosState::new`: all images sorted so
that later capture instants come first (stable sort; `Vec::sort_by` is
stable, modelled by the stable `insertionSort`). -/
def sortPhotosDescending (photos : List PhotoRef) : List PhotoRef :=
  List.insertionSort dtGe photos

structure AllAlbum where
  path : String
  name : String
  description : String
  cover_img : PhotoRef
  photos : List PhotoRef
  deriving DecidableEq, Repr

/-- The "all"-album construction at the end of `PhotosState::new` (photos.rs
lines 567–591): sort all images descending by capture time and take
`images_sorted[images_sorted.len() / 2]` as cover.  The Rust indexing
panics when the list is empty; that panic is modelled by `none`. -/
def mkAllAlbum (photos : List PhotoRef) : Option AllAlbum :=
  match (sortPhotosDescending photos)[(sortPhotosDescending photos).length / 2]? with
  | none => none
  | some midpoint_img =>
    some
      { path := ALL_ALBUM_PATH, name := ALL_ALBUM_NAME, description := ALL_ALBUM_DESC,
        cover_img := midpoint_img, photos := sortPhotosDescending photos }

/-- Manifest album entry as far as the `PhotosState::new` validation stages
consult it (`ParsedAlbum` without kind/display/description). -/
structure ParsedAlbumLite where
  name : String
  cover_img : String
  photos : List String
  deriving DecidableEq, Repr

/-- Outcome of `PhotosState::new`: a build error (`bail!`), a panic, or a
built state (represented by its synthesized "all" album). -/
inductive BuildOutcome where
  | buildError (msg : String)
  | panics
  | built (allAlbum : AllAlbum)
  deriving DecidableEq, Repr

/-- Staged model of `PhotosState::new` (photos.rs lines 383–616): the
reserved-name check, the album-path URI check, the image-file-name URI
check, the every-referenced-image-is-on-disk check (in the code's order),
then the "all"-album construction.  Per-photo EXIF/thumbnail processing and
album assembly are abstracted as succeeding; `diskPhotos` carries the
file names and capture instants that survive processing. -/
def photosStateNew (manifest : List (String × ParsedAlbumLite))
    (diskPhotos : List PhotoRef) : BuildOutcome :=
  if reservedNameViolation (manifest.map fun p => p.1) then
    BuildOutcome.buildError "albums info file contains reserved album name"
  else if !(manifest.all fun p => is_uri_idempotent p.1) then
    BuildOutcome.buildError "bad album name: must URI encode to the same value"
  else if !(diskPhotos.all fun p => is_uri_idempotent p.name) then
    BuildOutcome.buildError "bad image file name: must URI encode to the same value"
  else if !(manifest.all fun p =>
      (p.2.photos.all fun q => diskPhotos.any fun d => d.name = q)
        && (diskPhotos.any fun d => d.name = p.2.cover_img)) then
    BuildOutcome.buildError "some image(s) referenced in albums but are not on disk"
  else
    match mkAllAlbum diskPhotos with
    | none => BuildOutcome.panics
    | some a => BuildOutcome.built a

/-! ## Album references and `PhotosState::process_photo` (claims C3, C4) -/

/-- Rust `AlbumReference`: the album's path name and display name. -/
structure AlbumReference where
  path : String
  name : String
  deriving DecidableEq, Repr

/-- Rust `ParsedAlbumKind`. -/
inductive ParsedAlbumKind where
  | location
  | day (label : String)
  deriving DecidableEq, Repr

/-- Rust `PhotosState::fold_extract_single`: helper for `try_fold` keeping
at most one accumulated item; a second one is an error. -/
def fold_extract_single {α : Type} (acc : Option α) (val : α) : Except Unit (Option α) :=
  match acc with
  | none => Except.ok (some val)
  | some _ => Except.error ()

/-- The `try_fold(None, Self::fold_extract_single)` pattern over a list. -/
def extract_single {α : Type} (l : List α) : Except Unit (Option α) :=
  l.foldlM fold_extract_single none

/-- Indices of `albums` whose album (looked up by path in `all_albums`,
modelled by `kindOf`) has kind `Location` — the
`enumerate().filter(..).map(|(i, _)| i)` chain in `process_photo`. -/
def locationIndices (kindOf : String → Option ParsedAlbumKind)
    (albums : List AlbumReference) : List Nat :=
  (albums.enum.filter fun p => kindOf p.2.path = some ParsedAlbumKind.location).map
    fun p => p.1

/-- The location-extraction step of `process_photo` (photos.rs lines
641–649): at most one location membership is allowed; the single one, if
any, is removed from the list and returned separately. -/
def albumsAfterLocation (kindOf : String → Option ParsedAlbumKind)
    (albums : List AlbumReference) :
    Except String (Option AlbumReference × List AlbumReference) :=
  match extract_single (locationIndices kindOf albums) with
  | Except.error _ =>
    Except.error "found multiple 'location' albums containing this image"
  | Except.ok none => Except.ok (none, albums)
  | Except.ok (some i) => Except.ok (albums[i]?, albums.eraseIdx i)

/-- Matches `matches!(kind, Some(ParsedAlbumKind::Day(_)))`. -/
def isDayKind : Option ParsedAlbumKind → Bool
  | some (ParsedAlbumKind.day _) => true
  | _ => false

/-- The day-extraction step of `process_photo` (photos.rs lines 651–656):
at most one explicit day membership; the reference is *not* removed from
the list. -/
def extractDayRef (kindOf : String → Option ParsedAlbumKind)
    (albums : List AlbumReference) : Except String (Option AlbumReference) :=
  match extract_single (albums.filter fun r => isDayKind (kindOf r.path)) with
  | Except.error _ =>
    Except.error "found multiple 'day' albums containing this image"
  | Except.ok v => Except.ok v

/-- The comparison `rx.name.cmp(&ry.name)` as a "may precede" relation. -/
def NameLe (a b : AlbumReference) : Prop := strLe a.name b.name = true

instance : DecidableRel NameLe := fun a b =>
  inferInstanceAs (Decidable (strLe a.name b.name = true))

/-- The `albums.sort_by(|rx, ry| rx.name.cmp(&ry.name))` call (stable
sort). -/
def sortByName (l : List AlbumReference) : List AlbumReference :=
  List.insertionSort NameLe l

/-- Loop body of Rust's `slice::binary_search_by_key` (searching `key`
among the `path` fields), with explicit fuel; `mid` is read with
out-of-bounds defaulting to `""` (never exercised when `right ≤ length`).
Returns the found index, `none` for Rust's `Err(_)`. -/
def bsAux (l : List AlbumReference) (key : String) :
    Nat → Nat → Nat → Option Nat
  | 0, _, _ => none
  | fuel + 1, left, right =>
    if left < right then
      if strLt (((l[left + (right - left) / 2]?).map fun r => r.path).getD "") key then
        bsAux l key fuel (left + (right - left) / 2 + 1) right
      else if strLt key (((l[left + (right - left) / 2]?).map fun r => r.path).getD "") then
        bsAux l key fuel left (left + (right - left) / 2)
      else some (left + (right - left) / 2)
    else none

/-- Rust `albums.binary_search_by_key(&key, |a| a.path.as_str())`. -/
def rustBinarySearchByPath (l : List AlbumReference) (key : String) : Option Nat :=
  bsAux l key (l.length + 1) 0 l.length

/-- The favorites-extraction step of `process_photo` (photos.rs lines
694–700): binary-search the (name-sorted) list for path
`FAVORITES_ALBUM_NAME`; on a hit set `is_favorite` and remove the entry. -/
def removeFavorites (l : List AlbumReference) : Bool × List AlbumReference :=
  match rustBinarySearchByPath l FAVORITES_ALBUM_NAME with
  | some i => (true, l.eraseIdx i)
  | none => (false, l)

/-- The album-list portion of `PhotosState::process_photo` (photos.rs lines
639–700): extract the single location album (removing it), find the single
explicit day album (not removing it), sort the remaining references by
display name, then extract the favorites membership.  Returns
`(location, maybe_day_album, is_favorite, albums)`. -/
def processAlbumRefs (kindOf : String → Option ParsedAlbumKind)
    (albums0 : List AlbumReference) :
    Except String
      (Option AlbumReference × Option AlbumReference × Bool × List AlbumReference) :=
  match albumsAfterLocation kindOf albums0 with
  | Except.error e => Except.error e
  | Except.ok (location, albums1) =>
    match extractDayRef kindOf albums1 with
    | Except.error e => Except.error e
    | Except.ok maybeDay =>
      let sorted := sortByName albums1
      let favs := removeFavorites sorted
      Except.ok (location, maybeDay, favs.1, favs.2)

/-! ## The image-bytes route `img` and the photo-page context (claims C6, C9) -/

/-- The per-image data consulted by the `img` route: the content hash of
the on-disk full image and the hash of the in-memory smaller WEBP. -/
structure ImgEntry where
  full_img_hash : String
  smaller_hash : String
  deriving DecidableEq, Repr

/-- Outcome of the `img` route (photos.rs lines 322–372).  `smallImage`
models serving the in-memory WEBP, `fullFile` the on-disk image via
`NamedFile`, `internalServerError` the `NamedFile::open` failure path. -/
inductive ImgOutcome where
  | badRequest
  | notFound
  | redirect (name size hash : String) (isPermanent : Bool)
  | smallImage (hash : String)
  | fullFile (name : String)
  | internalServerError
  deriving DecidableEq, Repr

/-- Body of the `img` route after the size string has been validated
(`is_full` tells which hash is current).  `fullFileExists` models whether
`NamedFile::open(full_img_path(name))` succeeds. -/
def imgSized (images : List (String × ImgEntry)) (fullFileExists : String → Bool)
    (name size : String) (rev : Option String) (is_full : Bool) : ImgOutcome :=
  match images.lookup name with
  | none => ImgOutcome.notFound
  | some entry =>
    let target := if is_full then entry.full_img_hash else entry.smaller_hash
    if target ≠ rev.getD "" then
      ImgOutcome.redirect name size target rev.isSome
    else if !is_full then ImgOutcome.smallImage entry.smaller_hash
    else if fullFileExists name then ImgOutcome.fullFile name
    else ImgOutcome.internalServerError

/-- The `img` route (photos.rs lines 322–372): the size parameter defaults
to `""` and must be `"full"` or `"small"`, else `400 Bad Request`; then the
image is looked up, the revision hash compared, and the bytes served or a
redirect issued. -/
def img (images : List (String × ImgEntry)) (fullFileExists : String → Bool)
    (name : String) (size? rev : Option String) : ImgOutcome :=
  let size := size?.getD ""
  if size = "full" then imgSized images fullFileExists name size rev true
  else if size = "small" then imgSized images fullFileExists name size rev false
  else ImgOutcome.badRequest

/-- Checks the size guard of the `img` route. -/
def validSize (size? : Option String) : Bool :=
  size?.getD "" == "full" || size?.getD "" == "small"

/-- The parts of `PhotosState` that `img_page_context` and `album_context`
consult: the photo ids in `images`, the albums (path → ordered photo ids),
and the global `images_by_time` sequence.  (`Arc::ptr_eq` on clones of the
per-name `Arc<PhotoInfo>` is modelled by name equality.) -/
structure PageState where
  images : List String
  albums : List (String × List String)
  images_by_time : List String
  deriving Repr

/-- Outcome of `PhotosState::img_page_context` (photos.rs lines
1438–1495): not-found, a redirect to the photo page without album context,
the `unwrap_or_else(|| panic!(..))` when the photo is missing from the
chosen list, or the rendered page context with previous/next photos. -/
inductive PageOutcome where
  | notFound
  | redirectNoAlbum (img : String)
  | panicked
  | page (album : Option String) (img : String) (previous next : Option String)
  deriving DecidableEq, Repr

/-- Locating the photo in the chosen list and computing previous/next
(photos.rs lines 1464–1478). -/
def pageFromList (album : Option String) (imgName : String) (lst : List String) :
    PageOutcome :=
  match lst.findIdx? fun n => n = imgName with
  | none => PageOutcome.panicked
  | some idx =>
    PageOutcome.page album imgName
      (match idx with
        | 0 => none
        | i + 1 => lst[i]?)
      lst[idx + 1]?

/-- Rust `PhotosState::img_page_context`. -/
def img_page_context (st : PageState) (imgName : String) (album : Option String) :
    PageOutcome :=
  if !(st.images.contains imgName) then PageOutcome.notFound
  else
    match album with
    | none => pageFromList none imgName st.images_by_time
    | some aname =>
      match st.albums.lookup aname with
      | none => PageOutcome.redirectNoAlbum imgName
      | some lst => pageFromList (some aname) imgName lst

/-- Rust `PhotosState::album_context`: `None` (hence 404) exactly when the
album path is unknown. -/
def album_context (st : PageState) (name : String) : Option (List String) :=
  st.albums.lookup name

/-! ## Auto-generated day albums (claim C8) -/

/-- The local calendar date of `actual_datetime` (chrono
`Date<FixedOffset>`, compared by year/month/day). -/
structure LocalDate where
  year : Int
  month : Nat
  day : Nat
  deriving DecidableEq, Repr

/-- chrono `%B`: full English month name. -/
def monthName : Nat → String
  | 1 => "January"
  | 2 => "February"
  | 3 => "March"
  | 4 => "April"
  | 5 => "May"
  | 6 => "June"
  | 7 => "July"
  | 8 => "August"
  | 9 => "September"
  | 10 => "October"
  | 11 => "November"
  | 12 => "December"
  | _ => ""

/-- Zero-padding to two digits (chrono `%m` / `%d`). -/
def pad2 (n : Nat) : String :=
  if n < 10 then "0" ++ toString n else toString n

/-- Zero-padding to four digits (chrono `%Y`, for the CE years used
here). -/
def pad4 (n : Int) : String :=
  if n < 10 then "000" ++ toString n
  else if n < 100 then "00" ++ toString n
  else if n < 1000 then "0" ++ toString n
  else toString n

/-- The auto-date album path `date.format("%Y-%m-%d")`, e.g.
`"2021-12-18"`. -/
def formatDatePath (d : LocalDate) : String :=
  pad4 d.year ++ "-" ++ pad2 d.month ++ "-" ++ pad2 d.day

/-- The auto-date album display name `date.format("%-d %B, %Y")`, e.g.
`"18 December, 2021"`. -/
def formatDateName (d : LocalDate) : String :=
  toString d.day ++ " " ++ monthName d.month ++ ", " ++ pad4 d.year

/-- Rust `AutoDateAlbumBuilder`; the `BTreeMap<DateTime<FixedOffset>,
String>` of member photos is modelled as an association list sorted
strictly by key (insertion replaces an equal key, as `BTreeMap::insert`
does). -/
structure AutoDateAlbumBuilder where
  path : String
  name : String
  description : String
  photos : List (Int × String)
  deriving DecidableEq, Repr

/-- Rust `AutoDateAlbumBuilder::new` (photos.rs lines 804–816). -/
def AutoDateAlbumBuilder.new (date : LocalDate) : AutoDateAlbumBuilder :=
  let name := formatDateName date
  { path := formatDatePath date
    name := name
    description := "<p>Everything from " ++ name ++ "</p>"
    photos := [] }

/-- `BTreeMap::insert` on the sorted association list: keeps keys strictly
ascending, replacing the value at an equal key. -/
def btreeInsert (k : Int) (v : String) : List (Int × String) → List (Int × String)
  | [] => [(k, v)]
  | (k', v') :: rest =>
    if k < k' then (k, v) :: (k', v') :: rest
    else if k = k' then (k, v) :: rest
    else (k', v') :: btreeInsert k v rest

/-- Per-photo inputs to the day-album assignment: file name, capture
instant, local capture date, and whether an explicit day album already
references the photo. -/
structure PhotoMeta where
  name : String
  instant : Int
  date : LocalDate
  hasExplicitDay : Bool
  deriving DecidableEq, Repr

/-- `HashMap::get` on the date-keyed accumulator map. -/
def lookupDate (d : LocalDate) :
    List (LocalDate × AutoDateAlbumBuilder) → Option AutoDateAlbumBuilder
  | [] => none
  | (k, v) :: rest => if d = k then some v else lookupDate d rest

/-- Replaces the value stored for `key` in the date-keyed map (the
`Entry::Occupied` mutation of the `HashMap`). -/
def assocUpdate (key : LocalDate) (val : AutoDateAlbumBuilder) :
    List (LocalDate × AutoDateAlbumBuilder) → List (LocalDate × AutoDateAlbumBuilder)
  | [] => []
  | (k, v) :: rest =>
    if k = key then (k, val) :: rest else (k, v) :: assocUpdate key val rest

/-- The day-album fallback of `process_photo` (photos.rs lines 658–688)
iterated over the photo batch (the parallel workers mutate the shared
`auto_date_albums` map under a mutex; the map contents are
order-independent, modelled here as a sequential loop).  For each photo
without an explicit day album: look up its date; on a vacant entry create
the builder (erroring if a manifest album already claims the generated
path) and insert the photo; on an occupied entry insert the photo into the
builder's `BTreeMap`. -/
def buildAutoDateAlbumsGo (manifestPaths : List String) :
    List PhotoMeta → List (LocalDate × AutoDateAlbumBuilder) →
    Except String (List (LocalDate × AutoDateAlbumBuilder))
  | [], acc => Except.ok acc
  | p :: rest, acc =>
    if p.hasExplicitDay then buildAutoDateAlbumsGo manifestPaths rest acc
    else
      match lookupDate p.date acc with
      | none =>
        if manifestPaths.contains (AutoDateAlbumBuilder.new p.date).path then
          Except.error "preexisting album path conflicts with auto-generated date path"
        else
          buildAutoDateAlbumsGo manifestPaths rest
            (acc ++ [(p.date, { AutoDateAlbumBuilder.new p.date with
              photos := btreeInsert p.instant p.name (AutoDateAlbumBuilder.new p.date).photos })])
      | some a =>
        buildAutoDateAlbumsGo manifestPaths rest
          (assocUpdate p.date { a with photos := btreeInsert p.instant p.name a.photos } acc)

/-- All auto-generated day albums produced for a photo batch. -/
def buildAutoDateAlbums (manifestPaths : List String) (photos : List PhotoMeta) :
    Except String (List (LocalDate × AutoDateAlbumBuilder)) :=
  buildAutoDateAlbumsGo manifestPaths photos []

/-- Specification predicate for the auto-date-album accumulator after the
photos in `seen` have been handled: unique date keys; a date is present
exactly when some already-seen photo without an explicit day album has that
local capture date; and each date's builder has the generated path/name, a
strictly time-ascending member list containing exactly the seen photos of
that date. -/
def autoAlbumsInv (seen : List PhotoMeta)
    (acc : List (LocalDate × AutoDateAlbumBuilder)) : Prop :=
  (acc.map Prod.fst).Nodup
  ∧ (∀ d : LocalDate, (lookupDate d acc).isSome
      ↔ ∃ p ∈ seen, p.hasExplicitDay = false ∧ p.date = d)
  ∧ ∀ d a, lookupDate d acc = some a →
      a.path = formatDatePath d
      ∧ a.name = formatDateName d
      ∧ a.photos.Pairwise (fun x y => x.1 < y.1)
      ∧ (∀ p ∈ seen, p.hasExplicitDay = false → p.date = d →
          (p.instant, p.name) ∈ a.photos)
      ∧ (∀ e ∈ a.photos, ∃ p ∈ seen, p.hasExplicitDay = false ∧ p.date = d
          ∧ p.instant = e.1 ∧ p.name = e.2)

/-! ## Order lemmas for the string comparison -/

theorem charListLt_nil_right (b : List Char) : charListLt b [] = false := by
  cases b <;> rfl

theorem charListLt_irrefl : ∀ l : List Char, charListLt l l = false
  | [] => rfl
  | a :: as => by
    unfold charListLt
    rw [if_neg (lt_irrefl a), if_neg (lt_irrefl a)]
    exact charListLt_irrefl as

theorem charListLt_trans : ∀ a b c : List Char,
    charListLt a b = true → charListLt b c = true → charListLt a c = true := by
  intro a
  induction a with
  | nil =>
    intro b c h1 h2
    cases c with
    | nil => rw [charListLt_nil_right] at h2; exact absurd h2 (by simp)
    | cons c' cs => rfl
  | cons a' as ih =>
    intro b c h1 h2
    cases b with
    | nil => rw [charListLt_nil_right] at h1; exact absurd h1 (by simp)
    | cons b' bs =>
      cases c with
      | nil => rw [charListLt_nil_right] at h2; exact absurd h2 (by simp)
      | cons c' cs =>
        unfold charListLt at h1 h2 ⊢
        by_cases hab : a' < b'
        · by_cases hbc : b' < c'
          · rw [if_pos (lt_trans hab hbc)]
          · rw [if_neg hbc] at h2
            by_cases hcb : c' < b'
            · rw [if_pos hcb] at h2; exact absurd h2 (by simp)
            · have hbceq : b' = c' := le_antisymm (not_lt.mp hcb) (not_lt.mp hbc)
              subst hbceq
              rw [if_pos hab]
        · rw [if_neg hab] at h1
          by_cases hba : b' < a'
          · rw [if_pos hba] at h1; exact absurd h1 (by simp)
          · rw [if_neg hba] at h1
            have habe : a' = b' := le_antisymm (not_lt.mp hba) (not_lt.mp hab)
            subst habe
            by_cases hac : a' < c'
            · rw [if_pos hac]
            · rw [if_neg hac] at h2 ⊢
              by_cases hca : c' < a'
              · rw [if_pos hca] at h2; exact absurd h2 (by simp)
              · rw [if_neg hca] at h2 ⊢
                exact ih bs cs h1 h2

theorem charListLt_asymm {a b : List Char} (h : charListLt a b = true) :
    charListLt b a = false := by
  cases hc : charListLt b a with
  | false => rfl
  | true =>
    have := charListLt_trans a b a h hc
    rw [charListLt_irrefl] at this
    exact absurd this (by simp)

theorem charListLt_eq_of_not_lt : ∀ a b : List Char,
    charListLt a b = false → charListLt b a = false → a = b := by
  intro a
  induction a with
  | nil =>
    intro b h1 _
    cases b with
    | nil => rfl
    | cons b' bs => exact absurd h1 (by simp [charListLt])
  | cons a' as ih =>
    intro b h1 h2
    cases b with
    | nil => exact absurd h2 (by simp [charListLt])
    | cons b' bs =>
      unfold charListLt at h1 h2
      by_cases hab : a' < b'
      · rw [if_pos hab] at h1; exact absurd h1 (by simp)
      · by_cases hba : b' < a'
        · rw [if_pos hba] at h2; exact absurd h2 (by simp)
        · rw [if_neg hab, if_neg hba] at h1
          rw [if_neg hba, if_neg hab] at h2
          have habe : a' = b' := le_antisymm (not_lt.mp hba) (not_lt.mp hab)
          rw [habe, ih bs h1 h2]

theorem strLt_irrefl (s : String) : strLt s s = false := charListLt_irrefl s.data

theorem strLt_trans {a b c : String} (h1 : strLt a b = true) (h2 : strLt b c = true) :
    strLt a c = true := charListLt_trans a.data b.data c.data h1 h2

theorem strLt_asymm {a b : String} (h : strLt a b = true) : strLt b a = false :=
  charListLt_asymm h

theorem strLt_eq_of_not_lt {a b : String} (h1 : strLt a b = false)
    (h2 : strLt b a = false) : a = b :=
  String.ext (charListLt_eq_of_not_lt a.data b.data h1 h2)

theorem strLe_total (a b : String) : strLe a b = true ∨ strLe b a = true := by
  unfold strLe
  cases hc : strLt b a with
  | false => exact Or.inl rfl
  | true => exact Or.inr (by rw [strLt_asymm hc]; rfl)

theorem strLe_trans {a b c : String} (h1 : strLe a b = true) (h2 : strLe b c = true) :
    strLe a c = true := by
  unfold strLe at h1 h2 ⊢
  cases hca : strLt c a with
  | false => rfl
  | true =>
    cases hcb : strLt c b with
    | true => rw [hcb] at h2; exact absurd h2 (by simp)
    | false =>
      cases hbc : strLt b c with
      | true =>
        have := strLt_trans hbc hca
        rw [this] at h1
        exact absurd h1 (by simp)
      | false =>
        have hbce : b = c := strLt_eq_of_not_lt hbc hcb
        subst hbce
        rw [hca] at h1
        exact absurd h1 (by simp)

/-! ## List helpers: membership and `eraseIdx` -/

theorem mem_eraseIdx_index {α : Type} :
    ∀ (l : List α) (i : Nat) (r : α), r ∈ l.eraseIdx i →
      ∃ j, j ≠ i ∧ l[j]? = some r := by
  intro l
  induction l with
  | nil => intro i r h; simp [List.eraseIdx] at h
  | cons a as ih =>
    intro i r h
    cases i with
    | zero =>
      simp only [List.eraseIdx] at h
      obtain ⟨j, hj⟩ := List.mem_iff_getElem?.mp h
      exact ⟨j + 1, by simp, by simpa using hj⟩
    | succ i' =>
      simp only [List.eraseIdx] at h
      rcases List.mem_cons.mp h with heq | hmem
      · exact ⟨0, by simp, by simp [heq]⟩
      · obtain ⟨j, hj, hget⟩ := ih i' r hmem
        exact ⟨j + 1, by simpa using hj, by simpa using hget⟩

theorem mem_eraseIdx_of_ne {α : Type} :
    ∀ (l : List α) (i : Nat) (r : α), r ∈ l → l[i]? ≠ some r → r ∈ l.eraseIdx i := by
  intro l
  induction l with
  | nil => intro i r h; simp at h
  | cons a as ih =>
    intro i r h hne
    cases i with
    | zero =>
      simp only [List.eraseIdx]
      rcases List.mem_cons.mp h with heq | hmem
      · exact absurd (by simp [heq]) hne
      · exact hmem
    | succ i' =>
      simp only [List.eraseIdx]
      rcases List.mem_cons.mp h with heq | hmem
      · rw [heq]; exact List.mem_cons_self a _
      · exact List.mem_cons_of_mem a (ih i' r hmem (by simpa using hne))

/-! ## The `try_fold(None, fold_extract_single)` pattern -/

theorem foldlM_extract_some {α : Type} :
    ∀ (l : List α) (x : α) (y : Option α),
      l.foldlM fold_extract_single (some x) = Except.ok y → l = [] ∧ y = some x := by
  intro l x y h
  cases l with
  | nil =>
    simp only [List.foldlM_nil] at h
    exact ⟨rfl, (Except.ok.inj h).symm⟩
  | cons a rest =>
    simp only [List.foldlM_cons] at h
    exact absurd h (by simp [fold_extract_single, Bind.bind, Except.bind])

theorem extract_single_ok {α : Type} :
    ∀ (l : List α) (y : Option α), extract_single l = Except.ok y →
      (y = none ∧ l = []) ∨ ∃ a, y = some a ∧ l = [a] := by
  intro l y h
  cases l with
  | nil =>
    unfold extract_single at h
    simp only [List.foldlM_nil] at h
    exact Or.inl ⟨(Except.ok.inj h).symm, rfl⟩
  | cons a rest =>
    unfold extract_single at h
    simp only [List.foldlM_cons] at h
    have h' : rest.foldlM fold_extract_single (some a) = Except.ok y := by
      simpa [fold_extract_single, Except.bind] using h
    obtain ⟨hrest, hy⟩ := foldlM_extract_some rest a y h'
    exact Or.inr ⟨a, hy, by rw [hrest]⟩

/-! ## Facts about the location/day extraction steps of `process_photo` -/

theorem mem_locationIndices {kindOf : String → Option ParsedAlbumKind}
    {albums : List AlbumReference} {j : Nat} :
    j ∈ locationIndices kindOf albums ↔
      ∃ r, albums[j]? = some r ∧ kindOf r.path = some ParsedAlbumKind.location := by
  unfold locationIndices
  constructor
  · intro h
    obtain ⟨p, hp, hj⟩ := List.mem_map.mp h
    obtain ⟨hmem, hkind⟩ := List.mem_filter.mp hp
    refine ⟨p.2, ?_, by simpa using hkind⟩
    rw [← hj]
    exact List.mem_enum_iff_getElem?.mp hmem
  · intro ⟨r, hget, hkind⟩
    refine List.mem_map.mpr ⟨(j, r), List.mem_filter.mpr ⟨?_, by simpa using hkind⟩, rfl⟩
    exact List.mem_enum_iff_getElem?.mpr (by simpa using hget)

theorem albumsAfterLocation_ok_no_location {kindOf : String → Option ParsedAlbumKind}
    {albums albums1 : List AlbumReference} {loc : Option AlbumReference}
    (h : albumsAfterLocation kindOf albums = Except.ok (loc, albums1)) :
    ∀ r ∈ albums1, kindOf r.path ≠ some ParsedAlbumKind.location := by
  unfold albumsAfterLocation at h
  cases hes : extract_single (locationIndices kindOf albums) with
  | error e => rw [hes] at h; exact absurd h (by simp)
  | ok v =>
    rw [hes] at h
    rcases extract_single_ok _ v hes with ⟨hv, hnil⟩ | ⟨i, hv, hone⟩
    · subst hv
      simp only at h
      obtain ⟨-, halb⟩ := Prod.mk.injEq .. ▸ Except.ok.inj h
      subst halb
      intro r hr hkind
      obtain ⟨j, hj⟩ := List.mem_iff_getElem?.mp hr
      have : j ∈ locationIndices kindOf albums :=
        mem_locationIndices.mpr ⟨r, hj, hkind⟩
      rw [hnil] at this
      simp at this
    · subst hv
      simp only at h
      obtain ⟨-, halb⟩ := Prod.mk.injEq .. ▸ Except.ok.inj h
      subst halb
      intro r hr hkind
      obtain ⟨j, hjne, hj⟩ := mem_eraseIdx_index albums i r hr
      have : j ∈ locationIndices kindOf albums :=
        mem_locationIndices.mpr ⟨r, hj, hkind⟩
      rw [hone] at this
      exact hjne (by simpa using this)

theorem albumsAfterLocation_ok_sublist {kindOf : String → Option ParsedAlbumKind}
    {albums albums1 : List AlbumReference} {loc : Option AlbumReference}
    (h : albumsAfterLocation kindOf albums = Except.ok (loc, albums1)) :
    albums1.Sublist albums := by
  unfold albumsAfterLocation at h
  cases hes : extract_single (locationIndices kindOf albums) with
  | error e => rw [hes] at h; exact absurd h (by simp)
  | ok v =>
    rw [hes] at h
    cases v with
    | none =>
      simp only at h
      obtain ⟨-, halb⟩ := Prod.mk.injEq .. ▸ Except.ok.inj h
      subst halb
      exact List.Sublist.refl albums
    | some i =>
      simp only at h
      obtain ⟨-, halb⟩ := Prod.mk.injEq .. ▸ Except.ok.inj h
      subst halb
      exact List.eraseIdx_sublist albums i

theorem extractDayRef_ok_some {kindOf : String → Option ParsedAlbumKind}
    {albums : List AlbumReference} {r : AlbumReference}
    (h : extractDayRef kindOf albums = Except.ok (some r)) : r ∈ albums := by
  unfold extractDayRef at h
  cases hes : extract_single (albums.filter fun q => isDayKind (kindOf q.path)) with
  | error e => rw [hes] at h; exact absurd h (by simp)
  | ok v =>
    rw [hes] at h
    have hv : v = some r := by
      have := Except.ok.inj h
      simpa using this
    subst hv
    rcases extract_single_ok _ _ hes with ⟨hnone, -⟩ | ⟨a, hsome, hone⟩
    · exact absurd hnone (by simp)
    · have har : r = a := by simpa using hsome
      subst har
      have : r ∈ albums.filter fun q => isDayKind (kindOf q.path) := by
        rw [hone]; exact List.mem_cons_self r []
      exact (List.mem_filter.mp this).1

/-! ## Correctness of the binary-search model -/

theorem bsAux_sound (l : List AlbumReference) (key : String) (hkey : key ≠ "") :
    ∀ (fuel left right i : Nat), bsAux l key fuel left right = some i →
      ∃ r, l[i]? = some r ∧ r.path = key := by
  intro fuel
  induction fuel with
  | zero => intro left right i h; simp [bsAux] at h
  | succ fuel ih =>
    intro left right i h
    rw [bsAux] at h
    by_cases hlr : left < right
    · rw [if_pos hlr] at h
      by_cases h1 : strLt (((l[left + (right - left) / 2]?).map fun r => r.path).getD "") key = true
      · rw [if_pos h1] at h
        exact ih _ _ i h
      · rw [if_neg h1] at h
        by_cases h2 :
            strLt key (((l[left + (right - left) / 2]?).map fun r => r.path).getD "") = true
        · rw [if_pos h2] at h
          exact ih _ _ i h
        · rw [if_neg h2] at h
          have hi : left + (right - left) / 2 = i := Option.some.inj h
          cases hm : l[left + (right - left) / 2]? with
          | none =>
            rw [hm] at h1 h2
            simp only [Option.map_none', Option.getD_none] at h1 h2
            have : "" = key :=
              strLt_eq_of_not_lt (Bool.not_eq_true _ ▸ h1) (Bool.not_eq_true _ ▸ h2)
            exact absurd this.symm hkey
          | some r =>
            rw [hm] at h1 h2
            simp only [Option.map_some', Option.getD_some] at h1 h2
            refine ⟨r, hi ▸ hm, ?_⟩
            exact strLt_eq_of_not_lt (Bool.not_eq_true _ ▸ h1) (Bool.not_eq_true _ ▸ h2)
    · rw [if_neg hlr] at h
      exact absurd h (by simp)

theorem bsAux_complete (l : List AlbumReference) (key : String)
    (hsorted : l.Pairwise fun a b => strLt a.path b.path = true) :
    ∀ (fuel left right j : Nat) (r : AlbumReference),
      right ≤ l.length → right - left ≤ fuel →
      left ≤ j → j < right → l[j]? = some r → r.path = key →
      ∃ i, bsAux l key fuel left right = some i := by
  have horder : ∀ (i1 i2 : Nat) (h1 : i1 < l.length) (h2 : i2 < l.length), i1 < i2 →
      strLt (l[i1].path) (l[i2].path) = true := by
    intro i1 i2 h1 h2 hlt
    exact List.pairwise_iff_getElem.mp hsorted i1 i2 h1 h2 hlt
  intro fuel
  induction fuel with
  | zero =>
    intro left right j r _ hf hlj hjr _ _
    exact absurd rfl (by omega : ¬(0 : Nat) = 0)
  | succ fuel ih =>
    intro left right j r hrlen hf hlj hjr hget hpath
    have hlr : left < right := lt_of_le_of_lt hlj hjr
    have hmidr : left + (right - left) / 2 < right := by omega
    have hmidlen : left + (right - left) / 2 < l.length := lt_of_lt_of_le hmidr hrlen
    have hjlen : j < l.length := lt_of_lt_of_le hjr hrlen
    have hgetj : l[j] = r := by
      obtain ⟨h', he⟩ := List.getElem?_eq_some_iff.mp hget
      exact he
    have hrm : l[left + (right - left) / 2]? = some (l[left + (right - left) / 2]) :=
      List.getElem?_eq_getElem hmidlen
    rw [bsAux, if_pos hlr, hrm]
    simp only [Option.map_some', Option.getD_some]
    by_cases h1 : strLt (l[left + (right - left) / 2].path) key = true
    · rw [if_pos h1]
      have hjmid : left + (right - left) / 2 < j := by
        rcases lt_trichotomy j (left + (right - left) / 2) with hjm | hjm | hjm
        · have hlt := horder j (left + (right - left) / 2) hjlen hmidlen hjm
          rw [hgetj, hpath] at hlt
          have := strLt_trans hlt h1
          rw [strLt_irrefl] at this
          exact absurd this (by simp)
        · have hmr : l[left + (right - left) / 2]? = some r := by rw [← hjm]; exact hget
          rw [hrm] at hmr
          have hre : r = l[left + (right - left) / 2] := (Option.some.inj hmr).symm
          rw [← hre, hpath, strLt_irrefl] at h1
          exact absurd h1 (by simp)
        · exact hjm
      exact ih (left + (right - left) / 2 + 1) right j r hrlen (by omega) (by omega) hjr
        hget hpath
    · rw [if_neg h1]
      by_cases h2 : strLt key (l[left + (right - left) / 2].path) = true
      · rw [if_pos h2]
        have hjmid : j < left + (right - left) / 2 := by
          rcases lt_trichotomy j (left + (right - left) / 2) with hjm | hjm | hjm
          · exact hjm
          · have hmr : l[left + (right - left) / 2]? = some r := by rw [← hjm]; exact hget
            rw [hrm] at hmr
            have hre : r = l[left + (right - left) / 2] := (Option.some.inj hmr).symm
            rw [← hre, hpath, strLt_irrefl] at h2
            exact absurd h2 (by simp)
          · have hlt := horder (left + (right - left) / 2) j hmidlen hjlen hjm
            rw [hgetj, hpath] at hlt
            have := strLt_trans h2 hlt
            rw [strLt_irrefl] at this
            exact absurd this (by simp)
        exact ih left (left + (right - left) / 2) j r (le_of_lt hmidlen) (by omega)
          hlj hjmid hget hpath
      · rw [if_neg h2]
        exact ⟨left + (right - left) / 2, rfl⟩

theorem rustBinarySearchByPath_sound {l : List AlbumReference} {key : String} {i : Nat}
    (hkey : key ≠ "") (h : rustBinarySearchByPath l key = some i) :
    ∃ r, l[i]? = some r ∧ r.path = key :=
  bsAux_sound l key hkey (l.length + 1) 0 l.length i h

theorem rustBinarySearchByPath_complete {l : List AlbumReference} {key : String}
    {r : AlbumReference}
    (hsorted : l.Pairwise fun a b => strLt a.path b.path = true)
    (hr : r ∈ l) (hpath : r.path = key) :
    ∃ i, rustBinarySearchByPath l key = some i := by
  obtain ⟨j, hj⟩ := List.mem_iff_getElem?.mp hr
  have hjlen : j < l.length := (List.getElem?_eq_some_iff.mp hj).1
  exact bsAux_complete l key hsorted (l.length + 1) 0 l.length j r le_rfl
    (by omega) (Nat.zero_le j) hjlen hj hpath

/-! ## Facts about the favorites-extraction step -/

theorem removeFavorites_no_fav {l : List AlbumReference}
    (hsorted : l.Pairwise fun a b => strLt a.path b.path = true) :
    ∀ r ∈ (removeFavorites l).2, r.path ≠ FAVORITES_ALBUM_NAME := by
  intro r hr hra
  unfold removeFavorites at hr
  cases hbs : rustBinarySearchByPath l FAVORITES_ALBUM_NAME with
  | some i =>
    rw [hbs] at hr
    simp only at hr
    obtain ⟨rf, hif, hfpath⟩ :=
      rustBinarySearchByPath_sound (by decide : FAVORITES_ALBUM_NAME ≠ "") hbs
    obtain ⟨j, hjne, hjget⟩ := mem_eraseIdx_index l i r hr
    have hjlen : j < l.length := (List.getElem?_eq_some_iff.mp hjget).1
    have hilen : i < l.length := (List.getElem?_eq_some_iff.mp hif).1
    have hgj : l[j] = r := (List.getElem?_eq_some_iff.mp hjget).2
    have hgi : l[i] = rf := (List.getElem?_eq_some_iff.mp hif).2
    have horder := List.pairwise_iff_getElem.mp hsorted
    rcases lt_trichotomy j i with hji | hji | hji
    · have := horder j i hjlen hilen hji
      rw [hgj, hgi, hra, hfpath, strLt_irrefl] at this
      exact absurd this (by simp)
    · exact hjne hji
    · have := horder i j hilen hjlen hji
      rw [hgj, hgi, hra, hfpath, strLt_irrefl] at this
      exact absurd this (by simp)
  | none =>
    rw [hbs] at hr
    simp only at hr
    obtain ⟨i, hi⟩ := rustBinarySearchByPath_complete hsorted hr hra
    rw [hbs] at hi
    exact absurd hi (by simp)

theorem removeFavorites_isFav_iff {l : List AlbumReference}
    (hsorted : l.Pairwise fun a b => strLt a.path b.path = true) :
    (removeFavorites l).1 = true ↔ ∃ r ∈ l, r.path = FAVORITES_ALBUM_NAME := by
  unfold removeFavorites
  cases hbs : rustBinarySearchByPath l FAVORITES_ALBUM_NAME with
  | some i =>
    simp only [true_iff]
    obtain ⟨rf, hif, hfpath⟩ :=
      rustBinarySearchByPath_sound (by decide : FAVORITES_ALBUM_NAME ≠ "") hbs
    exact ⟨rf, List.getElem?_mem hif, hfpath⟩
  | none =>
    simp only [Bool.false_eq_true, false_iff]
    rintro ⟨r, hr, hpath⟩
    obtain ⟨i, hi⟩ := rustBinarySearchByPath_complete hsorted hr hpath
    rw [hbs] at hi
    exact absurd hi (by simp)

theorem removeFavorites_mem {l : List AlbumReference} {r : AlbumReference}
    (hr : r ∈ l) (hne : r.path ≠ FAVORITES_ALBUM_NAME) : r ∈ (removeFavorites l).2 := by
  unfold removeFavorites
  cases hbs : rustBinarySearchByPath l FAVORITES_ALBUM_NAME with
  | some i =>
    simp only
    obtain ⟨rf, hif, hfpath⟩ :=
      rustBinarySearchByPath_sound (by decide : FAVORITES_ALBUM_NAME ≠ "") hbs
    refine mem_eraseIdx_of_ne l i r hr ?_
    intro hc
    rw [hif] at hc
    have : rf = r := Option.some.inj hc
    exact hne (this ▸ hfpath)
  | none => simpa using hr

theorem removeFavorites_pairwise {l : List AlbumReference}
    {R : AlbumReference → AlbumReference → Prop} (h : l.Pairwise R) :
    (removeFavorites l).2.Pairwise R := by
  unfold removeFavorites
  cases rustBinarySearchByPath l FAVORITES_ALBUM_NAME with
  | some i => exact List.Pairwise.sublist (List.eraseIdx_sublist l i) h
  | none => exact h

theorem removeFavorites_subset {l : List AlbumReference} :
    ∀ r ∈ (removeFavorites l).2, r ∈ l := by
  intro r hr
  unfold removeFavorites at hr
  cases hbs : rustBinarySearchByPath l FAVORITES_ALBUM_NAME with
  | some i =>
    rw [hbs] at hr
    exact (List.eraseIdx_sublist l i).subset hr
  | none =>
    rw [hbs] at hr
    exact hr

theorem sortByName_perm (l : List AlbumReference) : (sortByName l).Perm l :=
  List.perm_insertionSort NameLe l

theorem sortByName_sorted (l : List AlbumReference) : (sortByName l).Pairwise NameLe := by
  haveI : IsTotal AlbumReference NameLe := ⟨fun a b => strLe_total a.name b.name⟩
  haveI : IsTrans AlbumReference NameLe := ⟨fun _ _ _ h1 h2 => strLe_trans h1 h2⟩
  exact List.sorted_insertionSort NameLe l

/-! ## Claim theorems -/

/-- Claim C1 (code bug): the reserved-name validation of `PhotosState::new`
does not fire for a manifest album whose path is the reserved `"all"`
(`ALL_ALBUM_PATH`): the code compares the path keys against the *display*
name `"All photos"` (`ALL_ALBUM_NAME`) instead.  A manifest declaring album
path `"all"` sails through validation and the whole build (no reserved-name
error is raised before — or after — the filesystem stage), contrary to the
claim and to the `ALL_ALBUM_PATH` doc comment ("must not be specified
manually in the list of albums"). -/
theorem c1_reserved_name_check_misses_all :
    reservedNameViolation [ALL_ALBUM_PATH] = false
    ∧ reservedNameViolation [ALL_ALBUM_NAME] = true
    ∧ photosStateNew [("all", ⟨"All of them", "p1", ["p1"]⟩)] [⟨"p1", 0⟩]
      = BuildOutcome.built ⟨"all", "All photos",
          "All of my photos on this site, each and every one", ⟨"p1", 0⟩, [⟨"p1", 0⟩]⟩ := by
  refine ⟨by decide, by decide, by decide⟩

/-- Claim C2 (code bug): for a decoded `UserComment` text whose first line
carries the alt-text marker, `from_img_data` returns the pair with the two
components swapped: `description` receives the stripped first line (the
intended alt text) and `alt_text` receives the rendered remainder.  With
the renderer modelled as the identity, `"alt:hello\nworld"` yields
`description = "hello"` and `alt_text = "world"` — the claim (and the code
comment) require `alt_text = "hello"` and `description = html("world")`.
Moreover the marker test runs on the *already rendered* text (second
conjunct: with a renderer that wraps in a paragraph tag, the marker is
never detected and the description is rendered twice), and a single-line
marked text keeps the marker inside `alt_text` (third conjunct). -/
theorem c2_description_alt_text_swapped :
    from_img_data_desc_alt id (some ("alt:hello\nworld".data))
      = (some "hello".data, some "world".data)
    ∧ from_img_data_desc_alt (fun s => "<p>".data ++ s ++ "</p>".data)
        (some ("alt:hello\nworld".data))
      = (some ("<p>".data ++ ("<p>".data ++ "alt:hello\nworld".data ++ "</p>".data)
          ++ "</p>".data), none)
    ∧ from_img_data_desc_alt id (some ("alt:hello".data))
      = (none, some "alt:hello".data) := by
  refine ⟨by decide, by decide, by decide⟩

/-- Claim C5 (code bug): with a strictly partial subset of the four GPS
tags present, `get_gps_coords` does fail, but the error's tag list is built
by filtering on `is_some` — it names exactly the *present* tags, not the
missing ones.  With only `GPSLatitude` present the message lists
`GPSLatitude` itself; with only `GPSLatitude` missing it lists the other
three.  (The all-present and all-absent cases do succeed, as the claim
states.) -/
theorem c5_partial_gps_error_names_present_tags :
    get_gps_coords (some 1) none none none = Except.error ["GPSLatitude"]
    ∧ get_gps_coords none (some 2) (some 1) (some 1)
      = Except.error ["GPSLatitudeRef", "GPSLongitude", "GPSLongitudeRef"]
    ∧ get_gps_coords (some 3) (some 4) (some 1) (some (-1))
      = Except.ok (some ⟨3, -4⟩)
    ∧ get_gps_coords none none none none = Except.ok none := by
  refine ⟨rfl, rfl, ?_, rfl⟩
  simp only [get_gps_coords, Except.ok.injEq, Option.some.injEq, GPSCoords.mk.injEq]
  norm_num

/-- Claim C3 (counterexample): a photo whose only album membership is its
explicit day album keeps that day-album reference in the generic `albums`
list — `process_photo` extracts `maybe_day_album` by iterating without
removing, unlike the location case.  The claim asserts the day reference is
removed. -/
theorem c3_counterexample_day_ref_not_removed :
    processAlbumRefs
      (fun p => if p = "2021-12-18" then some (ParsedAlbumKind.day "2021-12-18") else none)
      [⟨"2021-12-18", "18 December, 2021"⟩]
      = Except.ok (none, some ⟨"2021-12-18", "18 December, 2021"⟩, false,
          [⟨"2021-12-18", "18 December, 2021"⟩]) := by
  decide

/-- Claim C3 (amended): for a successfully processed photo, the generic
`albums` list contains no location-album reference and no reference with
path `"favorites"` — the latter guaranteed when the display-name-sorted
list happens to be strictly sorted by path as well, because the favorites
lookup binary-searches by *path* in a list sorted by *name* — the list is
sorted by display name, and the explicit day-album reference is *retained*
(not removed, contrary to the original claim). -/
theorem c3_amended_generic_albums (kindOf : String → Option ParsedAlbumKind)
    (albums0 albums1 : List AlbumReference) (loc maybeDay : Option AlbumReference)
    (hloc : albumsAfterLocation kindOf albums0 = Except.ok (loc, albums1))
    (hday : extractDayRef kindOf albums1 = Except.ok maybeDay)
    (hpaths : (sortByName albums1).Pairwise fun a b => strLt a.path b.path = true) :
    ∃ isFav out,
      processAlbumRefs kindOf albums0 = Except.ok (loc, maybeDay, isFav, out)
      ∧ (∀ r ∈ out, kindOf r.path ≠ some ParsedAlbumKind.location)
      ∧ (∀ r ∈ out, r.path ≠ FAVORITES_ALBUM_NAME)
      ∧ (isFav = true ↔ ∃ r ∈ albums1, r.path = FAVORITES_ALBUM_NAME)
      ∧ (∀ r, maybeDay = some r → r.path ≠ FAVORITES_ALBUM_NAME → r ∈ out)
      ∧ out.Pairwise NameLe := by
  refine ⟨(removeFavorites (sortByName albums1)).1,
    (removeFavorites (sortByName albums1)).2, ?_, ?_, ?_, ?_, ?_, ?_⟩
  · unfold processAlbumRefs
    rw [hloc]
    simp only
    rw [hday]
  · intro r hr
    have h1 : r ∈ sortByName albums1 := removeFavorites_subset r hr
    have h2 : r ∈ albums1 := (sortByName_perm albums1).subset h1
    exact albumsAfterLocation_ok_no_location hloc r h2
  · exact removeFavorites_no_fav hpaths
  · rw [removeFavorites_isFav_iff hpaths]
    constructor
    · rintro ⟨r, hr, hp⟩
      exact ⟨r, (sortByName_perm albums1).subset hr, hp⟩
    · rintro ⟨r, hr, hp⟩
      exact ⟨r, ((sortByName_perm albums1).mem_iff).mpr hr, hp⟩
  · intro r hmd hne
    have hr1 : r ∈ albums1 := extractDayRef_ok_some (hmd ▸ hday)
    exact removeFavorites_mem (((sortByName_perm albums1).mem_iff).mpr hr1) hne
  · exact removeFavorites_pairwise (sortByName_sorted albums1)

/-- Witness for the amended claim C3 at a concrete photo: memberships in
its explicit day album and in "favorites". -/
theorem c3_amended_generic_albums_witness :
    albumsAfterLocation
        (fun p => if p = "2021-12-18" then some (ParsedAlbumKind.day "d") else none)
        [⟨"2021-12-18", "18 December, 2021"⟩, ⟨"favorites", "Favs"⟩]
      = Except.ok (none, [⟨"2021-12-18", "18 December, 2021"⟩, ⟨"favorites", "Favs"⟩])
    ∧ extractDayRef
        (fun p => if p = "2021-12-18" then some (ParsedAlbumKind.day "d") else none)
        [⟨"2021-12-18", "18 December, 2021"⟩, ⟨"favorites", "Favs"⟩]
      = Except.ok (some ⟨"2021-12-18", "18 December, 2021"⟩)
    ∧ (sortByName [⟨"2021-12-18", "18 December, 2021"⟩, ⟨"favorites", "Favs"⟩]).Pairwise
        (fun a b => strLt a.path b.path = true)
    ∧ ∃ isFav out,
        processAlbumRefs
            (fun p => if p = "2021-12-18" then some (ParsedAlbumKind.day "d") else none)
            [⟨"2021-12-18", "18 December, 2021"⟩, ⟨"favorites", "Favs"⟩]
          = Except.ok (none, some ⟨"2021-12-18", "18 December, 2021"⟩, isFav, out)
        ∧ (∀ r ∈ out,
            (fun p => if p = "2021-12-18" then some (ParsedAlbumKind.day "d") else none) r.path
              ≠ some ParsedAlbumKind.location)
        ∧ (∀ r ∈ out, r.path ≠ FAVORITES_ALBUM_NAME)
        ∧ (isFav = true ↔
            ∃ r ∈ [(⟨"2021-12-18", "18 December, 2021"⟩ : AlbumReference),
              ⟨"favorites", "Favs"⟩], r.path = FAVORITES_ALBUM_NAME)
        ∧ (∀ r, (some ⟨"2021-12-18", "18 December, 2021"⟩ : Option AlbumReference) = some r →
            r.path ≠ FAVORITES_ALBUM_NAME → r ∈ out)
        ∧ out.Pairwise NameLe :=
  ⟨by decide, by decide, by decide,
    c3_amended_generic_albums
      (fun p => if p = "2021-12-18" then some (ParsedAlbumKind.day "d") else none)
      [⟨"2021-12-18", "18 December, 2021"⟩, ⟨"favorites", "Favs"⟩]
      [⟨"2021-12-18", "18 December, 2021"⟩, ⟨"favorites", "Favs"⟩]
      none (some ⟨"2021-12-18", "18 December, 2021"⟩)
      (by decide) (by decide) (by decide)⟩

/-- Claim C4 (code bug): `process_photo` looks for the favorites membership
with `binary_search_by_key` on the photo's `path`s — but the list was just
sorted by display *name*, so the binary search's sortedness contract is
violated.  Concretely, for a photo in the favorites album (display name
"Favs") and in an album with path "alps" / name "Great Alps", the
name-sorted list is `[favorites, alps]`, the search probes index 1, sees
"alps" < "favorites", moves right, and misses: `is_favorite` stays `false`
and the `"favorites"` reference survives in the generic `albums` list,
contradicting the claim. -/
theorem c4_favorites_search_misses :
    processAlbumRefs (fun _ => none)
      [⟨"favorites", "Favs"⟩, ⟨"alps", "Great Alps"⟩]
      = Except.ok (none, none, false,
          [⟨"favorites", "Favs"⟩, ⟨"alps", "Great Alps"⟩]) := by
  decide

/-- Claim C10 (confirmed): with no image files on disk and no manifest
albums, every validation stage passes and `PhotosState::new` reaches
`images_sorted[images_sorted.len() / 2]` on an empty vector — an
out-of-bounds index, i.e. a panic (modelled by `BuildOutcome.panics` /
`none`), rather than an error value or an empty snapshot. -/
theorem c10_empty_collection_panics :
    photosStateNew [] [] = BuildOutcome.panics
    ∧ mkAllAlbum ([] : List PhotoRef) = none :=
  ⟨rfl, rfl⟩

/-- Claim C7 (confirmed): for a nonempty photo collection, the synthesized
"all" album holds exactly the discovered photos (a permutation of them),
in descending capture-time order, with the cover at the midpoint index
`⌊count / 2⌋` of that sorted sequence. -/
theorem c7_all_album_spec (photos : List PhotoRef) (hne : photos ≠ []) :
    ∃ a, mkAllAlbum photos = some a
      ∧ a.photos.Perm photos
      ∧ a.photos.Pairwise dtGe
      ∧ a.photos[a.photos.length / 2]? = some a.cover_img
      ∧ a.path = ALL_ALBUM_PATH ∧ a.name = ALL_ALBUM_NAME := by
  have hperm : (sortPhotosDescending photos).Perm photos :=
    List.perm_insertionSort dtGe photos
  have hpos : 0 < photos.length := List.length_pos.mpr hne
  have hlen : (sortPhotosDescending photos).length = photos.length := hperm.length_eq
  have hidx : (sortPhotosDescending photos).length / 2 < (sortPhotosDescending photos).length := by
    omega
  have hm : (sortPhotosDescending photos)[(sortPhotosDescending photos).length / 2]?
      = some ((sortPhotosDescending photos)[(sortPhotosDescending photos).length / 2]) :=
    List.getElem?_eq_getElem hidx
  refine ⟨⟨ALL_ALBUM_PATH, ALL_ALBUM_NAME, ALL_ALBUM_DESC,
    (sortPhotosDescending photos)[(sortPhotosDescending photos).length / 2],
    sortPhotosDescending photos⟩, ?_, hperm, ?_, hm, rfl, rfl⟩
  · unfold mkAllAlbum
    rw [hm]
  · exact List.sorted_insertionSort dtGe photos

/-- Witness for claim C7 at a concrete three-photo collection. -/
theorem c7_all_album_spec_witness :
    ([⟨"a", 5⟩, ⟨"b", 9⟩, ⟨"c", 1⟩] : List PhotoRef) ≠ []
    ∧ ∃ a, mkAllAlbum [⟨"a", 5⟩, ⟨"b", 9⟩, ⟨"c", 1⟩] = some a
      ∧ a.photos.Perm [⟨"a", 5⟩, ⟨"b", 9⟩, ⟨"c", 1⟩]
      ∧ a.photos.Pairwise dtGe
      ∧ a.photos[a.photos.length / 2]? = some a.cover_img
      ∧ a.path = ALL_ALBUM_PATH ∧ a.name = ALL_ALBUM_NAME :=
  ⟨by decide, c7_all_album_spec [⟨"a", 5⟩, ⟨"b", 9⟩, ⟨"c", 1⟩] (by decide)⟩

theorem imgSized_redirect_iff (images : List (String × ImgEntry))
    (fullFileExists : String → Bool) (name size : String) (rev : Option String)
    (is_full : Bool) (e : ImgEntry)
    (hlook : images.lookup name = some e) :
    ((if is_full then e.full_img_hash else e.smaller_hash) ≠ rev.getD "" →
      imgSized images fullFileExists name size rev is_full
        = ImgOutcome.redirect name size
            (if is_full then e.full_img_hash else e.smaller_hash) rev.isSome)
    ∧ (rev = some (if is_full then e.full_img_hash else e.smaller_hash) →
      ∀ n s h b, imgSized images fullFileExists name size rev is_full
        ≠ ImgOutcome.redirect n s h b) := by
  unfold imgSized
  rw [hlook]
  simp only
  constructor
  · intro hne
    rw [if_pos hne]
  · intro hrev n s h b
    subst hrev
    rw [if_neg (by simp)]
    cases is_full with
    | false => simp
    | true => by_cases hff : fullFileExists name = true <;> simp [hff]

/-- Claim C9 (confirmed): for a known image and a valid size selector, a
supplied revision hash different from the current content hash yields a
*permanent* redirect to the canonical hashed URL; a request with *no*
revision (and a nonempty current hash, as `base64(sha256(..))` always is)
yields a *temporary* redirect; and a request whose revision matches is
never redirected. -/
theorem c9_stale_revision_redirect (images : List (String × ImgEntry))
    (fullFileExists : String → Bool) (name : String) (size? rev : Option String)
    (e : ImgEntry) (target : String)
    (hlook : images.lookup name = some e)
    (hsize : size?.getD "" = "full" ∨ size?.getD "" = "small")
    (htarget : target
      = if size?.getD "" = "full" then e.full_img_hash else e.smaller_hash) :
    (∀ r, rev = some r → r ≠ target →
      img images fullFileExists name size? rev
        = ImgOutcome.redirect name (size?.getD "") target true)
    ∧ (rev = none → target ≠ "" →
      img images fullFileExists name size? rev
        = ImgOutcome.redirect name (size?.getD "") target false)
    ∧ (rev = some target →
      ∀ n s h b, img images fullFileExists name size? rev ≠ ImgOutcome.redirect n s h b) := by
  rcases hsize with hs | hs
  · have hfull : target = e.full_img_hash := by rw [htarget, if_pos hs]
    have himg : img images fullFileExists name size? rev
        = imgSized images fullFileExists name (size?.getD "") rev true := by
      unfold img
      rw [if_pos hs]
    obtain ⟨hred, hnored⟩ :=
      imgSized_redirect_iff images fullFileExists name (size?.getD "") rev true e hlook
    simp only [if_pos True.intro] at hred hnored
    rw [himg, hfull]
    refine ⟨?_, ?_, ?_⟩
    · intro r hrev hne
      subst hrev
      have := hred (by simpa using Ne.symm hne)
      simpa using this
    · intro hrev hne
      subst hrev
      have := hred (by simpa using hne)
      simpa using this
    · intro hrev
      subst hrev
      exact hnored rfl
  · have hsmall : target = e.smaller_hash := by
      rw [htarget, if_neg (by rw [hs]; decide)]
    have himg : img images fullFileExists name size? rev
        = imgSized images fullFileExists name (size?.getD "") rev false := by
      unfold img
      rw [if_neg (by rw [hs]; decide), if_pos hs]
    obtain ⟨hred, hnored⟩ :=
      imgSized_redirect_iff images fullFileExists name (size?.getD "") rev false e hlook
    simp only [Bool.false_eq_true, if_neg] at hred hnored
    rw [himg, hsmall]
    refine ⟨?_, ?_, ?_⟩
    · intro r hrev hne
      subst hrev
      have := hred (by simpa using Ne.symm hne)
      simpa using this
    · intro hrev hne
      subst hrev
      have := hred (by simpa using hne)
      simpa using this
    · intro hrev
      subst hrev
      exact hnored rfl

/-- Witness for claim C9: a one-image state queried with a stale revision,
with no revision, and with the matching revision. -/
theorem c9_stale_revision_redirect_witness :
    ([("x", ⟨"HASH", "hash"⟩)] : List (String × ImgEntry)).lookup "x"
      = some ⟨"HASH", "hash"⟩
    ∧ ((some "small" : Option String).getD "" = "full"
        ∨ (some "small" : Option String).getD "" = "small")
    ∧ ("hash" : String)
      = (if (some "small" : Option String).getD "" = "full"
          then ("HASH" : String) else "hash")
    ∧ ((∀ r, (some "zz" : Option String) = some r → r ≠ "hash" →
        img [("x", ⟨"HASH", "hash"⟩)] (fun _ => true) "x" (some "small") (some "zz")
          = ImgOutcome.redirect "x" ((some "small" : Option String).getD "") "hash" true)
      ∧ ((some "zz" : Option String) = none → ("hash" : String) ≠ "" →
        img [("x", ⟨"HASH", "hash"⟩)] (fun _ => true) "x" (some "small") (some "zz")
          = ImgOutcome.redirect "x" ((some "small" : Option String).getD "") "hash" false)
      ∧ ((some "zz" : Option String) = some "hash" →
        ∀ n s h b, img [("x", ⟨"HASH", "hash"⟩)] (fun _ => true) "x" (some "small")
          (some "zz") ≠ ImgOutcome.redirect n s h b)) :=
  ⟨by decide, by decide, by decide,
    c9_stale_revision_redirect [("x", ⟨"HASH", "hash"⟩)] (fun _ => true) "x"
      (some "small") (some "zz") ⟨"HASH", "hash"⟩ "hash"
      (by decide) (by decide) (by decide)⟩

theorem imgSized_ne_badRequest (images : List (String × ImgEntry))
    (fullFileExists : String → Bool) (name size : String) (rev : Option String)
    (is_full : Bool) :
    imgSized images fullFileExists name size rev is_full ≠ ImgOutcome.badRequest := by
  unfold imgSized
  cases images.lookup name with
  | none => simp
  | some e =>
    simp only
    split_ifs <;> simp

theorem imgSized_notFound_iff (images : List (String × ImgEntry))
    (fullFileExists : String → Bool) (name size : String) (rev : Option String)
    (is_full : Bool) :
    imgSized images fullFileExists name size rev is_full = ImgOutcome.notFound
      ↔ images.lookup name = none := by
  cases hlk : images.lookup name with
  | none => unfold imgSized; rw [hlk]; simp
  | some e =>
    unfold imgSized
    rw [hlk]
    simp only
    split_ifs <;> simp

theorem imgSized_iSE (images : List (String × ImgEntry))
    (fullFileExists : String → Bool) (name size : String) (rev : Option String)
    (is_full : Bool)
    (h : imgSized images fullFileExists name size rev is_full
      = ImgOutcome.internalServerError) :
    is_full = true ∧ ∃ e, images.lookup name = some e
      ∧ rev.getD "" = e.full_img_hash ∧ fullFileExists name = false := by
  unfold imgSized at h
  cases hlk : images.lookup name with
  | none => rw [hlk] at h; simp at h
  | some e =>
    rw [hlk] at h
    simp only at h
    by_cases h1 : (if is_full then e.full_img_hash else e.smaller_hash) ≠ rev.getD ""
    · rw [if_pos h1] at h; simp at h
    · rw [if_neg h1] at h
      by_cases h2 : (!is_full) = true
      · rw [if_pos h2] at h; simp at h
      · rw [if_neg h2] at h
        have hfull : is_full = true := by
          cases is_full with
          | true => rfl
          | false => exact absurd rfl h2
        by_cases h3 : fullFileExists name = true
        · rw [if_pos h3] at h; simp at h
        · refine ⟨hfull, e, rfl, ?_, by simpa using h3⟩
          have : (if is_full then e.full_img_hash else e.smaller_hash) = rev.getD "" :=
            not_ne_iff.mp h1
          rw [hfull] at this
          simp only [if_pos True.intro] at this
          exact this.symm

theorem pageFromList_panicked_iff (a : Option String) (i : String) (lst : List String) :
    pageFromList a i lst = PageOutcome.panicked ↔ i ∉ lst := by
  unfold pageFromList
  cases hf : lst.findIdx? (fun n => n = i) with
  | none =>
    simp only
    constructor
    · intro _ hmem
      have hall := List.findIdx?_eq_none_iff.mp hf
      have := hall i hmem
      simp at this
    · intro _; trivial
  | some idx =>
    simp only
    constructor
    · intro h; simp at h
    · intro hni
      exfalso
      have hnone : lst.findIdx? (fun n => n = i) = none := by
        refine List.findIdx?_eq_none_iff.mpr ?_
        intro x hx
        simp only [decide_eq_false_iff_not]
        intro he
        exact hni (he ▸ hx)
      rw [hnone] at hf
      exact Option.noConfusion hf

theorem img_page_context_panicked_iff (st : PageState) (imgName : String)
    (album : Option String)
    (hWF : ∀ n ∈ st.images, n ∈ st.images_by_time) :
    img_page_context st imgName album = PageOutcome.panicked
      ↔ imgName ∈ st.images ∧ ∃ aname lst, album = some aname
          ∧ st.albums.lookup aname = some lst ∧ imgName ∉ lst := by
  unfold img_page_context
  by_cases hc : st.images.contains imgName = true
  · rw [if_neg (by rw [hc]; decide)]
    have hmem : imgName ∈ st.images := List.mem_of_elem_eq_true hc
    cases album with
    | none =>
      simp only
      constructor
      · intro h
        exfalso
        exact (pageFromList_panicked_iff none imgName st.images_by_time).mp h
          (hWF imgName hmem)
      · rintro ⟨-, aname, lst, halb, -, -⟩
        exact Option.noConfusion halb
    | some aname =>
      cases hlk : st.albums.lookup aname with
      | none =>
        simp only
        rw [hlk]
        constructor
        · intro h; simp at h
        · rintro ⟨-, aname2, lst, halb, hlk2, -⟩
          have ha : aname2 = aname := (Option.some.inj halb).symm
          subst ha
          rw [hlk] at hlk2
          exact Option.noConfusion hlk2
      | some lst =>
        simp only
        rw [hlk]
        rw [pageFromList_panicked_iff]
        constructor
        · intro h
          exact ⟨hmem, aname, lst, rfl, hlk, h⟩
        · rintro ⟨-, aname2, lst2, halb, hlk2, hni⟩
          have ha : aname2 = aname := (Option.some.inj halb).symm
          subst ha
          rw [hlk] at hlk2
          have hl : lst = lst2 := Option.some.inj hlk2
          rw [hl]
          exact hni
  · have hcf : st.images.contains imgName = false := by
      cases h2 : st.images.contains imgName with
      | false => rfl
      | true => exact absurd h2 hc
    rw [if_pos (by rw [hcf]; decide)]
    have hmem : imgName ∉ st.images := fun hm => hc (List.elem_eq_true_of_mem hm)
    constructor
    · intro h; simp at h
    · rintro ⟨hmem2, -⟩
      exact absurd hmem2 hmem

/-- Claim C6 (counterexample): non-success outcomes beyond "not found" and
"redirect" are reachable at the read interface even with a published
snapshot containing the requested photo: an image-bytes request without a
size parameter (or with any size other than `"small"`/`"full"`) is answered
with `400 Bad Request`, and a photo-page request naming an existing album
that does not contain the (existing) photo panics. -/
theorem c6_counterexample_bad_request_and_panic :
    img [("x", ⟨"H", "h"⟩)] (fun _ => true) "x" none none = ImgOutcome.badRequest
    ∧ img_page_context ⟨["x"], [("beach", ["y"])], ["x"]⟩ "x" (some "beach")
      = PageOutcome.panicked := by
  refine ⟨by decide, by decide⟩

/-- Claim C6 (amended): at the read interface, the non-success outcomes
are: `400 Bad Request` exactly when the image-бytes size parameter is
missing or not `"small"`/`"full"`; "not found" exactly when the size is
valid but the photo id is unknown (resp., for album pages, when the album
path is unknown); internal-server-error only when the revision matched but
the full-size file is missing from disk; and a photo-page panic exactly
when the photo exists but is absent from the requested existing album's
photo list (never for the global time sequence, which contains every
photo). -/
theorem c6_amended_failure_modes (images : List (String × ImgEntry))
    (fullFileExists : String → Bool) (name : String) (size? rev : Option String)
    (st : PageState) (imgName : String) (album : Option String)
    (hWF : ∀ n ∈ st.images, n ∈ st.images_by_time) :
    (img images fullFileExists name size? rev = ImgOutcome.badRequest
      ↔ validSize size? = false)
    ∧ (img images fullFileExists name size? rev = ImgOutcome.notFound
      ↔ validSize size? = true ∧ images.lookup name = none)
    ∧ (img images fullFileExists name size? rev = ImgOutcome.internalServerError
      → size?.getD "" = "full" ∧ ∃ e, images.lookup name = some e
          ∧ rev.getD "" = e.full_img_hash ∧ fullFileExists name = false)
    ∧ (img_page_context st imgName album = PageOutcome.panicked
      ↔ imgName ∈ st.images ∧ ∃ aname lst, album = some aname
          ∧ st.albums.lookup aname = some lst ∧ imgName ∉ lst)
    ∧ (∀ n, album_context st n = none ↔ st.albums.lookup n = none) := by
  refine ⟨?_, ?_, ?_, img_page_context_panicked_iff st imgName album hWF,
    fun n => Iff.rfl⟩
  · unfold img validSize
    by_cases h1 : size?.getD "" = "full"
    · rw [if_pos h1, h1]
      simp only [imgSized_ne_badRequest, false_iff]
      simp
    · rw [if_neg h1]
      by_cases h2 : size?.getD "" = "small"
      · rw [if_pos h2, h2]
        simp only [imgSized_ne_badRequest, false_iff]
        simp
      · rw [if_neg h2]
        constructor
        · intro _
          rw [Bool.or_eq_false_iff]
          exact ⟨by simpa using h1, by simpa using h2⟩
        · intro _; rfl
  · unfold img validSize
    by_cases h1 : size?.getD "" = "full"
    · rw [if_pos h1, h1]
      rw [imgSized_notFound_iff]
      simp
    · rw [if_neg h1]
      by_cases h2 : size?.getD "" = "small"
      · rw [if_pos h2, h2]
        rw [imgSized_notFound_iff]
        simp
      · rw [if_neg h2]
        constructor
        · intro h; simp at h
        · rintro ⟨hv, -⟩
          rw [Bool.or_eq_true] at hv
          rcases hv with hv | hv
          · exact absurd (by simpa using hv) h1
          · exact absurd (by simpa using hv) h2
  · unfold img
    by_cases h1 : size?.getD "" = "full"
    · rw [if_pos h1]
      intro h
      obtain ⟨-, e, hlk, hrev, hff⟩ := imgSized_iSE _ _ _ _ _ _ h
      exact ⟨h1, e, hlk, hrev, hff⟩
    · rw [if_neg h1]
      by_cases h2 : size?.getD "" = "small"
      · rw [if_pos h2]
        intro h
        obtain ⟨hfull, -⟩ := imgSized_iSE _ _ _ _ _ _ h
        exact absurd hfull (by simp)
      · rw [if_neg h2]
        intro h
        exact absurd h (by simp)

/-- Witness for the amended claim C6 at a concrete snapshot and request. -/
theorem c6_amended_failure_modes_witness :
    (∀ n ∈ (⟨["x"], [("beach", ["y"])], ["x"]⟩ : PageState).images,
      n ∈ (⟨["x"], [("beach", ["y"])], ["x"]⟩ : PageState).images_by_time)
    ∧ ((img [("x", ⟨"H", "h"⟩)] (fun _ => true) "x" none none = ImgOutcome.badRequest
        ↔ validSize none = false)
      ∧ (img [("x", ⟨"H", "h"⟩)] (fun _ => true) "x" none none = ImgOutcome.notFound
        ↔ validSize none = true ∧ ([("x", ⟨"H", "h"⟩)] : List (String × ImgEntry)).lookup "x" = none)
      ∧ (img [("x", ⟨"H", "h"⟩)] (fun _ => true) "x" none none
          = ImgOutcome.internalServerError
        → (none : Option String).getD "" = "full"
          ∧ ∃ e, ([("x", ⟨"H", "h"⟩)] : List (String × ImgEntry)).lookup "x" = some e
            ∧ (none : Option String).getD "" = e.full_img_hash ∧ (fun _ => true) "x" = false)
      ∧ (img_page_context ⟨["x"], [("beach", ["y"])], ["x"]⟩ "x" (some "beach")
          = PageOutcome.panicked
        ↔ "x" ∈ (⟨["x"], [("beach", ["y"])], ["x"]⟩ : PageState).images
          ∧ ∃ aname lst, (some "beach" : Option String) = some aname
            ∧ (⟨["x"], [("beach", ["y"])], ["x"]⟩ : PageState).albums.lookup aname = some lst
            ∧ "x" ∉ lst)
      ∧ (∀ n, album_context ⟨["x"], [("beach", ["y"])], ["x"]⟩ n = none
        ↔ (⟨["x"], [("beach", ["y"])], ["x"]⟩ : PageState).albums.lookup n = none)) :=
  ⟨by decide,
    c6_amended_failure_modes [("x", ⟨"H", "h"⟩)] (fun _ => true) "x" none none
      ⟨["x"], [("beach", ["y"])], ["x"]⟩ "x" (some "beach") (by decide)⟩

/-! ## Association-list and sorted-map lemmas for the auto-date albums -/

theorem lookupDate_eq_none_iff_keys (d : LocalDate)
    (l : List (LocalDate × AutoDateAlbumBuilder)) :
    lookupDate d l = none ↔ d ∉ l.map Prod.fst := by
  induction l with
  | nil => simp [lookupDate]
  | cons kv rest ih =>
    obtain ⟨k, v⟩ := kv
    by_cases h : d = k
    · subst h
      simp [lookupDate]
    · simp [lookupDate, h, ih]

theorem lookupDate_append (d : LocalDate)
    (l1 l2 : List (LocalDate × AutoDateAlbumBuilder)) :
    lookupDate d (l1 ++ l2)
      = match lookupDate d l1 with
        | some v => some v
        | none => lookupDate d l2 := by
  induction l1 with
  | nil => simp [lookupDate]
  | cons kv rest ih =>
    obtain ⟨k, v⟩ := kv
    by_cases h : d = k <;> simp [lookupDate, h, ih]

theorem assocUpdate_keys (key : LocalDate) (val : AutoDateAlbumBuilder) :
    ∀ l, (assocUpdate key val l).map Prod.fst = l.map Prod.fst := by
  intro l
  induction l with
  | nil => rfl
  | cons kv rest ih =>
    obtain ⟨k, v⟩ := kv
    by_cases h : k = key <;> simp [assocUpdate, h, ih]

theorem lookupDate_assocUpdate_self (key : LocalDate) (val : AutoDateAlbumBuilder)
    (l : List (LocalDate × AutoDateAlbumBuilder)) (a : AutoDateAlbumBuilder)
    (h : lookupDate key l = some a) :
    lookupDate key (assocUpdate key val l) = some val := by
  induction l with
  | nil => simp [lookupDate] at h
  | cons kv rest ih =>
    obtain ⟨k, v⟩ := kv
    by_cases hk : k = key
    · subst hk
      simp [assocUpdate, lookupDate]
    · have hk' : ¬(key = k) := fun he => hk he.symm
      simp only [lookupDate, if_neg hk'] at h
      simp only [assocUpdate, if_neg hk, lookupDate, if_neg hk']
      exact ih h

theorem lookupDate_assocUpdate_ne (key : LocalDate) (val : AutoDateAlbumBuilder)
    (d : LocalDate) (hne : d ≠ key) :
    ∀ l, lookupDate d (assocUpdate key val l) = lookupDate d l := by
  intro l
  induction l with
  | nil => rfl
  | cons kv rest ih =>
    obtain ⟨k, v⟩ := kv
    by_cases hk : k = key
    · subst hk
      simp [assocUpdate, lookupDate, hne, ih]
    · by_cases hd : d = k <;> simp [assocUpdate, hk, lookupDate, hd, ih]

theorem mem_btreeInsert_self (k : Int) (v : String) :
    ∀ l, (k, v) ∈ btreeInsert k v l := by
  intro l
  induction l with
  | nil => simp [btreeInsert]
  | cons kv rest ih =>
    obtain ⟨k', v'⟩ := kv
    by_cases h1 : k < k'
    · simp [btreeInsert, h1]
    · by_cases h2 : k = k'
      · simp [btreeInsert, h1, h2]
      · simp only [btreeInsert, if_neg h1, if_neg h2]
        exact List.mem_cons_of_mem _ ih

theorem mem_btreeInsert_of_ne (k : Int) (v : String) (e : Int × String)
    (hne : e.1 ≠ k) :
    ∀ l, e ∈ l → e ∈ btreeInsert k v l := by
  intro l
  induction l with
  | nil => intro h; simp at h
  | cons kv rest ih =>
    obtain ⟨k', v'⟩ := kv
    intro h
    by_cases h1 : k < k'
    · simp only [btreeInsert, if_pos h1]
      exact List.mem_cons_of_mem _ h
    · by_cases h2 : k = k'
      · simp only [btreeInsert, if_neg h1, if_pos h2]
        rcases List.mem_cons.mp h with he | hmem
        · exfalso
          apply hne
          rw [he, h2]
        · exact List.mem_cons_of_mem _ hmem
      · simp only [btreeInsert, if_neg h1, if_neg h2]
        rcases List.mem_cons.mp h with he | hmem
        · rw [he]; exact List.mem_cons_self _ _
        · exact List.mem_cons_of_mem _ (ih hmem)

theorem mem_btreeInsert_elim (k : Int) (v : String) (e : Int × String) :
    ∀ l, e ∈ btreeInsert k v l → e = (k, v) ∨ e ∈ l := by
  intro l
  induction l with
  | nil =>
    intro h
    rw [btreeInsert] at h
    exact Or.inl (List.mem_singleton.mp h)
  | cons kv rest ih =>
    obtain ⟨k', v'⟩ := kv
    intro h
    by_cases h1 : k < k'
    · rw [btreeInsert, if_pos h1] at h
      rcases List.mem_cons.mp h with he | hmem
      · exact Or.inl he
      · exact Or.inr hmem
    · by_cases h2 : k = k'
      · rw [btreeInsert, if_neg h1, if_pos h2] at h
        rcases List.mem_cons.mp h with he | hmem
        · exact Or.inl he
        · exact Or.inr (List.mem_cons_of_mem _ hmem)
      · rw [btreeInsert, if_neg h1, if_neg h2] at h
        rcases List.mem_cons.mp h with he | hmem
        · exact Or.inr (he ▸ List.mem_cons_self _ _)
        · rcases ih hmem with he | hm
          · exact Or.inl he
          · exact Or.inr (List.mem_cons_of_mem _ hm)

theorem btreeInsert_sorted (k : Int) (v : String) :
    ∀ l, l.Pairwise (fun x y => x.1 < y.1) →
      (btreeInsert k v l).Pairwise (fun (x y : Int × String) => x.1 < y.1) := by
  intro l
  induction l with
  | nil => intro _; simp [btreeInsert]
  | cons kv rest ih =>
    obtain ⟨k', v'⟩ := kv
    intro h
    obtain ⟨hhead, htail⟩ := List.pairwise_cons.mp h
    by_cases h1 : k < k'
    · rw [btreeInsert, if_pos h1]
      refine List.pairwise_cons.mpr ⟨?_, h⟩
      intro y hy
      rcases List.mem_cons.mp hy with he | hmem
      · rw [he]; exact h1
      · exact lt_trans h1 (hhead y hmem)
    · by_cases h2 : k = k'
      · rw [btreeInsert, if_neg h1, if_pos h2]
        refine List.pairwise_cons.mpr ⟨?_, htail⟩
        intro y hy
        rw [h2]
        exact hhead y hy
      · rw [btreeInsert, if_neg h1, if_neg h2]
        refine List.pairwise_cons.mpr ⟨?_, ih htail⟩
        intro y hy
        rcases mem_btreeInsert_elim k v y rest hy with he | hmem
        · rw [he]
          exact lt_of_le_of_ne (not_lt.mp h1) fun hc => h2 hc.symm
        · exact hhead y hmem

theorem autoDateAlbumBuilder_new_path (d : LocalDate) :
    (AutoDateAlbumBuilder.new d).path = formatDatePath d := rfl

theorem autoDateAlbumBuilder_new_name (d : LocalDate) :
    (AutoDateAlbumBuilder.new d).name = formatDateName d := rfl

theorem autoDateAlbumBuilder_new_photos (d : LocalDate) :
    (AutoDateAlbumBuilder.new d).photos = [] := rfl

/-! ## Invariant preservation for the auto-date album accumulator -/

theorem autoAlbumsInv_step_explicit {seen : List PhotoMeta}
    {acc : List (LocalDate × AutoDateAlbumBuilder)} {p : PhotoMeta}
    (hinv : autoAlbumsInv seen acc) (hp : p.hasExplicitDay = true) :
    autoAlbumsInv (seen ++ [p]) acc := by
  obtain ⟨hnd, hiff, hent⟩ := hinv
  refine ⟨hnd, ?_, ?_⟩
  · intro d
    rw [hiff d]
    constructor
    · rintro ⟨q, hq, hqe, hqd⟩
      exact ⟨q, List.mem_append_left _ hq, hqe, hqd⟩
    · rintro ⟨q, hq, hqe, hqd⟩
      rcases List.mem_append.mp hq with hq | hq
      · exact ⟨q, hq, hqe, hqd⟩
      · rw [List.mem_singleton.mp hq, hp] at hqe
        exact absurd hqe (by simp)
  · intro d a ha
    obtain ⟨h1, h2, h3, h4, h5⟩ := hent d a ha
    refine ⟨h1, h2, h3, ?_, ?_⟩
    · intro q hq hqe hqd
      rcases List.mem_append.mp hq with hq | hq
      · exact h4 q hq hqe hqd
      · rw [List.mem_singleton.mp hq, hp] at hqe
        exact absurd hqe (by simp)
    · intro e he
      obtain ⟨q, hq, hrest⟩ := h5 e he
      exact ⟨q, List.mem_append_left _ hq, hrest⟩

theorem autoAlbumsInv_step_vacant {seen : List PhotoMeta}
    {acc : List (LocalDate × AutoDateAlbumBuilder)} {p : PhotoMeta}
    (hinv : autoAlbumsInv seen acc) (hp : p.hasExplicitDay = false)
    (hlk : lookupDate p.date acc = none) :
    autoAlbumsInv (seen ++ [p])
      (acc ++ [(p.date, { AutoDateAlbumBuilder.new p.date with
        photos := btreeInsert p.instant p.name (AutoDateAlbumBuilder.new p.date).photos })]) := by
  obtain ⟨hnd, hiff, hent⟩ := hinv
  have hkeynot : p.date ∉ acc.map Prod.fst := (lookupDate_eq_none_iff_keys _ _).mp hlk
  have hnoseen : ¬∃ q ∈ seen, q.hasExplicitDay = false ∧ q.date = p.date := by
    intro hex
    have := (hiff p.date).mpr hex
    rw [hlk] at this
    exact absurd this (by simp)
  refine ⟨?_, ?_, ?_⟩
  · rw [List.map_append]
    simp only [List.map_cons, List.map_nil]
    rw [List.nodup_append]
    refine ⟨hnd, List.nodup_singleton _, ?_⟩
    intro x hx hx2
    rw [List.mem_singleton.mp hx2] at hx
    exact hkeynot hx
  · intro d
    rw [lookupDate_append]
    cases hod : lookupDate d acc with
    | some a =>
      simp only
      have hex := (hiff d).mp (by rw [hod]; rfl)
      constructor
      · intro _
        obtain ⟨q, hq, hrest⟩ := hex
        exact ⟨q, List.mem_append_left _ hq, hrest⟩
      · intro _
        rfl
    | none =>
      simp only
      by_cases hd : d = p.date
      · subst hd
        simp only [lookupDate, if_true]
        exact iff_of_true rfl
          ⟨p, List.mem_append_right _ (List.mem_singleton_self p), hp, rfl⟩
      · have hd' : ¬(d = p.date) := hd
        simp only [lookupDate, if_neg hd', Option.isSome_none]
        constructor
        · intro hc
          exact absurd hc (by simp)
        · rintro ⟨q, hq, hqe, hqd⟩
          rcases List.mem_append.mp hq with hq | hq
          · have := (hiff d).mpr ⟨q, hq, hqe, hqd⟩
            rw [hod] at this
            exact absurd this (by simp)
          · rw [List.mem_singleton.mp hq] at hqd
            exact absurd hqd.symm hd
  · intro d a ha
    rw [lookupDate_append] at ha
    cases hod : lookupDate d acc with
    | some a0 =>
      rw [hod] at ha
      simp only at ha
      have haa : a0 = a := Option.some.inj ha
      subst haa
      obtain ⟨h1, h2, h3, h4, h5⟩ := hent d a0 hod
      refine ⟨h1, h2, h3, ?_, ?_⟩
      · intro q hq hqe hqd
        rcases List.mem_append.mp hq with hq | hq
        · exact h4 q hq hqe hqd
        · rw [List.mem_singleton.mp hq] at hqd
          rw [hqd] at hlk
          rw [hod] at hlk
          exact absurd hlk (by simp)
      · intro e he
        obtain ⟨q, hq, hrest⟩ := h5 e he
        exact ⟨q, List.mem_append_left _ hq, hrest⟩
    | none =>
      rw [hod] at ha
      simp only at ha
      simp only [lookupDate] at ha
      by_cases hd : d = p.date
      · rw [if_pos hd] at ha
        have haX : { AutoDateAlbumBuilder.new p.date with
            photos := btreeInsert p.instant p.name (AutoDateAlbumBuilder.new p.date).photos }
            = a := Option.some.inj ha
        subst haX
        refine ⟨?_, ?_, ?_, ?_, ?_⟩
        · show (AutoDateAlbumBuilder.new p.date).path = formatDatePath d
          rw [autoDateAlbumBuilder_new_path, hd]
        · show (AutoDateAlbumBuilder.new p.date).name = formatDateName d
          rw [autoDateAlbumBuilder_new_name, hd]
        · show (btreeInsert p.instant p.name
            (AutoDateAlbumBuilder.new p.date).photos).Pairwise _
          rw [autoDateAlbumBuilder_new_photos]
          exact btreeInsert_sorted p.instant p.name [] (List.Pairwise.nil)
        · intro q hq hqe hqd
          rcases List.mem_append.mp hq with hq | hq
          · exfalso
            have := (hiff d).mpr ⟨q, hq, hqe, hqd⟩
            rw [hod] at this
            exact absurd this (by simp)
          · show (q.instant, q.name) ∈ btreeInsert p.instant p.name
              (AutoDateAlbumBuilder.new p.date).photos
            rw [List.mem_singleton.mp hq, autoDateAlbumBuilder_new_photos]
            exact mem_btreeInsert_self p.instant p.name []
        · intro e he
          have he' : e ∈ btreeInsert p.instant p.name
              (AutoDateAlbumBuilder.new p.date).photos := he
          rw [autoDateAlbumBuilder_new_photos] at he'
          rcases mem_btreeInsert_elim p.instant p.name e [] he' with heq | hmem
          · refine ⟨p, List.mem_append_right _ (List.mem_singleton_self p), hp, hd.symm,
              ?_, ?_⟩
            · rw [heq]
            · rw [heq]
          · exact absurd hmem (by simp)
      · rw [if_neg hd] at ha
        exact absurd ha (by simp)

theorem autoAlbumsInv_step_occupied {seen : List PhotoMeta}
    {acc : List (LocalDate × AutoDateAlbumBuilder)} {p : PhotoMeta}
    {a : AutoDateAlbumBuilder}
    (hinv : autoAlbumsInv seen acc) (hp : p.hasExplicitDay = false)
    (hlk : lookupDate p.date acc = some a)
    (hfresh : ∀ q ∈ seen, q.hasExplicitDay = false → q.instant ≠ p.instant) :
    autoAlbumsInv (seen ++ [p])
      (assocUpdate p.date { a with photos := btreeInsert p.instant p.name a.photos } acc) := by
  obtain ⟨hnd, hiff, hent⟩ := hinv
  refine ⟨?_, ?_, ?_⟩
  · rw [assocUpdate_keys]
    exact hnd
  · intro d
    by_cases hd : d = p.date
    · subst hd
      rw [lookupDate_assocUpdate_self _ _ _ _ hlk]
      exact iff_of_true rfl ⟨p, List.mem_append_right _ (List.mem_singleton_self p), hp, rfl⟩
    · rw [lookupDate_assocUpdate_ne _ _ _ hd]
      rw [hiff d]
      constructor
      · rintro ⟨q, hq, hrest⟩
        exact ⟨q, List.mem_append_left _ hq, hrest⟩
      · rintro ⟨q, hq, hqe, hqd⟩
        rcases List.mem_append.mp hq with hq | hq
        · exact ⟨q, hq, hqe, hqd⟩
        · rw [List.mem_singleton.mp hq] at hqd
          exact absurd hqd.symm hd
  · intro d b hb
    by_cases hd : d = p.date
    · subst hd
      rw [lookupDate_assocUpdate_self _ _ _ _ hlk] at hb
      have hbX : { a with photos := btreeInsert p.instant p.name a.photos } = b :=
        Option.some.inj hb
      subst hbX
      obtain ⟨h1, h2, h3, h4, h5⟩ := hent p.date a hlk
      refine ⟨h1, h2, ?_, ?_, ?_⟩
      · exact btreeInsert_sorted p.instant p.name a.photos h3
      · intro q hq hqe hqd
        rcases List.mem_append.mp hq with hq | hq
        · have hqmem := h4 q hq hqe hqd
          exact mem_btreeInsert_of_ne p.instant p.name (q.instant, q.name)
            (hfresh q hq hqe) a.photos hqmem
        · rw [List.mem_singleton.mp hq]
          exact mem_btreeInsert_self p.instant p.name a.photos
      · intro e he
        rcases mem_btreeInsert_elim p.instant p.name e a.photos he with heq | hmem
        · refine ⟨p, List.mem_append_right _ (List.mem_singleton_self p), hp, rfl, ?_, ?_⟩
          · rw [heq]
          · rw [heq]
        · obtain ⟨q, hq, hrest⟩ := h5 e hmem
          exact ⟨q, List.mem_append_left _ hq, hrest⟩
    · rw [lookupDate_assocUpdate_ne _ _ _ hd] at hb
      obtain ⟨h1, h2, h3, h4, h5⟩ := hent d b hb
      refine ⟨h1, h2, h3, ?_, ?_⟩
      · intro q hq hqe hqd
        rcases List.mem_append.mp hq with hq | hq
        · exact h4 q hq hqe hqd
        · rw [List.mem_singleton.mp hq] at hqd
          exact absurd hqd.symm hd
      · intro e he
        obtain ⟨q, hq, hrest⟩ := h5 e he
        exact ⟨q, List.mem_append_left _ hq, hrest⟩

theorem buildAutoGo_spec (manifestPaths : List String) :
    ∀ (remaining seen : List PhotoMeta) (acc : List (LocalDate × AutoDateAlbumBuilder)),
      (∀ p ∈ remaining, p.hasExplicitDay = false →
        manifestPaths.contains (formatDatePath p.date) = false) →
      (∀ p ∈ remaining, p.hasExplicitDay = false →
        ∀ q ∈ seen, q.hasExplicitDay = false → q.instant ≠ p.instant) →
      ((remaining.filter fun p => !p.hasExplicitDay).Pairwise
        fun p q => p.instant ≠ q.instant) →
      autoAlbumsInv seen acc →
      ∃ res, buildAutoDateAlbumsGo manifestPaths remaining acc = Except.ok res
        ∧ autoAlbumsInv (seen ++ remaining) res := by
  intro remaining
  induction remaining with
  | nil =>
    intro seen acc _ _ _ hinv
    exact ⟨acc, rfl, by simpa using hinv⟩
  | cons p rest ih =>
    intro seen acc hconf hdis hdis2 hinv
    have hseen : seen ++ p :: rest = (seen ++ [p]) ++ rest := by simp
    have hconfrest : ∀ q ∈ rest, q.hasExplicitDay = false →
        manifestPaths.contains (formatDatePath q.date) = false :=
      fun q hq => hconf q (List.mem_cons_of_mem p hq)
    by_cases hp : p.hasExplicitDay = true
    · have hgo : buildAutoDateAlbumsGo manifestPaths (p :: rest) acc
          = buildAutoDateAlbumsGo manifestPaths rest acc := by
        simp only [buildAutoDateAlbumsGo, hp, if_true]
      have hdisrest : ∀ q ∈ rest, q.hasExplicitDay = false →
          ∀ r ∈ seen ++ [p], r.hasExplicitDay = false → r.instant ≠ q.instant := by
        intro q hq hqe r hr hre
        rcases List.mem_append.mp hr with hr | hr
        · exact hdis q (List.mem_cons_of_mem p hq) hqe r hr hre
        · rw [List.mem_singleton.mp hr, hp] at hre
          exact absurd hre (by simp)
      have hdis2rest : (rest.filter fun q => !q.hasExplicitDay).Pairwise
          fun q r => q.instant ≠ r.instant := by
        have : (p :: rest).filter (fun q => !q.hasExplicitDay)
            = rest.filter fun q => !q.hasExplicitDay := by
          rw [List.filter_cons_of_neg (by simp [hp])]
        rw [this] at hdis2
        exact hdis2
      obtain ⟨res, hres, hinvres⟩ := ih (seen ++ [p]) acc hconfrest hdisrest hdis2rest
        (autoAlbumsInv_step_explicit hinv hp)
      refine ⟨res, ?_, ?_⟩
      · rw [hgo]
        exact hres
      · rw [hseen]
        exact hinvres
    · have hpf : p.hasExplicitDay = false := by
        cases hpe : p.hasExplicitDay with
        | false => rfl
        | true => exact absurd hpe hp
      have hfilter : (p :: rest).filter (fun q => !q.hasExplicitDay)
          = p :: rest.filter fun q => !q.hasExplicitDay := by
        rw [List.filter_cons_of_pos (by simp [hpf])]
      rw [hfilter] at hdis2
      obtain ⟨hdisp, hdis2rest⟩ := List.pairwise_cons.mp hdis2
      have hdisrest : ∀ q ∈ rest, q.hasExplicitDay = false →
          ∀ r ∈ seen ++ [p], r.hasExplicitDay = false → r.instant ≠ q.instant := by
        intro q hq hqe r hr hre
        rcases List.mem_append.mp hr with hr | hr
        · exact hdis q (List.mem_cons_of_mem p hq) hqe r hr hre
        · rw [List.mem_singleton.mp hr]
          exact hdisp q (List.mem_filter.mpr ⟨hq, by simp [hqe]⟩)
      cases hlk : lookupDate p.date acc with
      | none =>
        have hcont : manifestPaths.contains (AutoDateAlbumBuilder.new p.date).path
            = false := by
          rw [autoDateAlbumBuilder_new_path]
          exact hconf p (List.mem_cons_self _ _) hpf
        have hgo : buildAutoDateAlbumsGo manifestPaths (p :: rest) acc
            = buildAutoDateAlbumsGo manifestPaths rest
                (acc ++ [(p.date, { AutoDateAlbumBuilder.new p.date with
                  photos := btreeInsert p.instant p.name
                    (AutoDateAlbumBuilder.new p.date).photos })]) := by
          simp only [buildAutoDateAlbumsGo, hpf, Bool.false_eq_true, if_false, hlk, hcont]
        obtain ⟨res, hres, hinvres⟩ := ih (seen ++ [p]) _ hconfrest hdisrest hdis2rest
          (autoAlbumsInv_step_vacant hinv hpf hlk)
        refine ⟨res, ?_, ?_⟩
        · rw [hgo]
          exact hres
        · rw [hseen]
          exact hinvres
      | some a =>
        have hfresh : ∀ q ∈ seen, q.hasExplicitDay = false → q.instant ≠ p.instant :=
          fun q hq hqe => hdis p (List.mem_cons_self _ _) hpf q hq hqe
        have hgo : buildAutoDateAlbumsGo manifestPaths (p :: rest) acc
            = buildAutoDateAlbumsGo manifestPaths rest
                (assocUpdate p.date
                  { a with photos := btreeInsert p.instant p.name a.photos } acc) := by
          simp only [buildAutoDateAlbumsGo, hpf, Bool.false_eq_true, if_false, hlk]
        obtain ⟨res, hres, hinvres⟩ := ih (seen ++ [p]) _ hconfrest hdisrest hdis2rest
          (autoAlbumsInv_step_occupied hinv hpf hlk hfresh)
        refine ⟨res, ?_, ?_⟩
        · rw [hgo]
          exact hres
        · rw [hseen]
          exact hinvres

/-- Claim C8 (counterexample): two photos captured at the *same* instant on
the same date (no explicit day album) collapse into a single entry of the
auto-generated day album — the member map is keyed by the capture
`DateTime`, so the second `BTreeMap::insert` replaces the first photo.  The
resulting album for 2021-12-18 contains only `"p2"`; the claim requires it
to contain every photo of that date. -/
theorem c8_counterexample_timestamp_collision :
    buildAutoDateAlbums []
        [⟨"p1", 5, ⟨2021, 12, 18⟩, false⟩, ⟨"p2", 5, ⟨2021, 12, 18⟩, false⟩]
      = Except.ok [(⟨2021, 12, 18⟩,
          { path := "2021-12-18", name := "18 December, 2021",
            description := "<p>Everything from 18 December, 2021</p>",
            photos := [(5, "p2")] })] := by
  decide

/-- Claim C8 (amended): provided the photos lacking an explicit day album
have pairwise distinct capture instants (photos sharing an exact instant
collapse to the last processed one) and no auto-generated date path
collides with a manifest album, the builder succeeds and produces exactly
one album per distinct local capture date; each album carries the generated
path (`"YYYY-MM-DD"`) and name (like `"18 December, 2021"`), and its photo
list is strictly ascending by exact capture instant and contains exactly
the no-explicit-day photos of that date. -/
theorem c8_amended_auto_date_albums (manifestPaths : List String)
    (photos : List PhotoMeta)
    (hdis : (photos.filter fun p => !p.hasExplicitDay).Pairwise
      fun p q => p.instant ≠ q.instant)
    (hconf : ∀ p ∈ photos, p.hasExplicitDay = false →
      manifestPaths.contains (formatDatePath p.date) = false) :
    ∃ res, buildAutoDateAlbums manifestPaths photos = Except.ok res
      ∧ (res.map Prod.fst).Nodup
      ∧ (∀ d : LocalDate, (lookupDate d res).isSome
          ↔ ∃ p ∈ photos, p.hasExplicitDay = false ∧ p.date = d)
      ∧ (∀ d a, lookupDate d res = some a →
          a.path = formatDatePath d
          ∧ a.name = formatDateName d
          ∧ a.photos.Pairwise (fun x y => x.1 < y.1)
          ∧ (∀ p ∈ photos, p.hasExplicitDay = false → p.date = d →
              (p.instant, p.name) ∈ a.photos)
          ∧ (∀ e ∈ a.photos, ∃ p ∈ photos, p.hasExplicitDay = false ∧ p.date = d
              ∧ p.instant = e.1 ∧ p.name = e.2))
      ∧ formatDatePath ⟨2021, 12, 18⟩ = "2021-12-18"
      ∧ formatDateName ⟨2021, 12, 18⟩ = "18 December, 2021" := by
  have hinv0 : autoAlbumsInv [] [] := by
    refine ⟨List.nodup_nil, ?_, ?_⟩
    · intro d
      simp [lookupDate]
    · intro d a ha
      simp [lookupDate] at ha
  obtain ⟨res, hres, hinv⟩ := buildAutoGo_spec manifestPaths photos [] [] hconf
    (by intro p _ _ q hq; simp at hq) hdis hinv0
  obtain ⟨hnd, hiff, hent⟩ : autoAlbumsInv photos res := by simpa using hinv
  exact ⟨res, hres, hnd, hiff, hent, by decide, by decide⟩

/-- Witness for the amended claim C8: two photos of the same date at
distinct instants and one photo of another date. -/
theorem c8_amended_auto_date_albums_witness :
    (([⟨"p1", 5, ⟨2021, 12, 18⟩, false⟩, ⟨"p2", 3, ⟨2021, 12, 18⟩, false⟩,
        ⟨"q", 7, ⟨2022, 1, 2⟩, false⟩] : List PhotoMeta).filter
          fun p => !p.hasExplicitDay).Pairwise (fun p q => p.instant ≠ q.instant)
    ∧ (∀ p ∈ ([⟨"p1", 5, ⟨2021, 12, 18⟩, false⟩, ⟨"p2", 3, ⟨2021, 12, 18⟩, false⟩,
        ⟨"q", 7, ⟨2022, 1, 2⟩, false⟩] : List PhotoMeta), p.hasExplicitDay = false →
        (["travel"] : List String).contains (formatDatePath p.date) = false)
    ∧ ∃ res, buildAutoDateAlbums ["travel"]
          [⟨"p1", 5, ⟨2021, 12, 18⟩, false⟩, ⟨"p2", 3, ⟨2021, 12, 18⟩, false⟩,
            ⟨"q", 7, ⟨2022, 1, 2⟩, false⟩] = Except.ok res
        ∧ (res.map Prod.fst).Nodup
        ∧ (∀ d : LocalDate, (lookupDate d res).isSome
            ↔ ∃ p ∈ ([⟨"p1", 5, ⟨2021, 12, 18⟩, false⟩, ⟨"p2", 3, ⟨2021, 12, 18⟩, false⟩,
                ⟨"q", 7, ⟨2022, 1, 2⟩, false⟩] : List PhotoMeta),
              p.hasExplicitDay = false ∧ p.date = d)
        ∧ (∀ d a, lookupDate d res = some a →
            a.path = formatDatePath d
            ∧ a.name = formatDateName d
            ∧ a.photos.Pairwise (fun x y => x.1 < y.1)
            ∧ (∀ p ∈ ([⟨"p1", 5, ⟨2021, 12, 18⟩, false⟩, ⟨"p2", 3, ⟨2021, 12, 18⟩, false⟩,
                ⟨"q", 7, ⟨2022, 1, 2⟩, false⟩] : List PhotoMeta),
                p.hasExplicitDay = false → p.date = d → (p.instant, p.name) ∈ a.photos)
            ∧ (∀ e ∈ a.photos, ∃ p ∈ ([⟨"p1", 5, ⟨2021, 12, 18⟩, false⟩,
                ⟨"p2", 3, ⟨2021, 12, 18⟩, false⟩,
                ⟨"q", 7, ⟨2022, 1, 2⟩, false⟩] : List PhotoMeta),
                p.hasExplicitDay = false ∧ p.date = d ∧ p.instant = e.1 ∧ p.name = e.2))
        ∧ formatDatePath ⟨2021, 12, 18⟩ = "2021-12-18"
        ∧ formatDateName ⟨2021, 12, 18⟩ = "18 December, 2021" :=
  ⟨by decide, by decide,
    c8_amended_auto_date_albums ["travel"]
      [⟨"p1", 5, ⟨2021, 12, 18⟩, false⟩, ⟨"p2", 3, ⟨2021, 12, 18⟩, false⟩,
        ⟨"q", 7, ⟨2022, 1, 2⟩, false⟩] (by decide) (by decide)⟩

end PhotosSite
